import Mathlib

/-
Verification development for the manufacturing digital-twin event-log
simulator (src/operations.py and src/event_log_generator.py).

Modelling conventions:
- Instants are rationals, measured in minutes since an arbitrary origin;
  `datetime` values and `timedelta(minutes=x)` arithmetic translate to plain
  rational arithmetic.  All real arithmetic of the source is modelled exactly
  over ℚ.
- Python `round(x, 2)` is modelled as exact round-half-to-even at two decimal
  places (`round2`).
- The two random generators of the source (`random` seeded by `random.seed`
  and `numpy.random` seeded by `np.random.seed`) are modelled by a `Draws`
  record: the k-th call of each generator returns a rational that is a
  function of the call index (and, for numpy, of the distribution
  parameters).  Seeding both generators from the single `seed` parameter at
  function entry makes the whole run a pure function of the seed; this is
  expressed by quantifying over an arbitrary assignment `seed ↦ Draws`.
- The `while op_idx < len(OPERATION_SEQUENCE)` loop has no termination
  guarantee for arbitrary draw streams, so it is given explicit fuel; running
  out of fuel yields the distinguished error "fuel exhausted", which no
  actual Python behaviour maps to.
- Python exceptions (`ValueError` from `get_operation_by_id` and
  `list.index`, the `KeyError` raised by sorting an empty frame) become
  `Except.error`.
- Module-level configuration (catalog, sequence, rework map) is passed as
  parameters; the module constants are reproduced verbatim below and are the
  canonical instantiation.
- Ghost instrumentation (fields that exist only to let theorems talk about
  the run, never feeding back into behaviour): `Event.case_num` (the integer
  the source formats into `case_id`), `Event.ws_index` (the slot index the
  source embeds into the `resource` label), and `SimSt.redirects` (the list
  of fired rework redirects).
-/

/-- Exact round-half-to-even of a rational to an integer (the rounding mode
of Python `round`). -/
def rhe (q : ℚ) : ℤ :=
  let f := ⌊q⌋
  let r := q - f
  if r < 1 / 2 then f
  else if 1 / 2 < r then f + 1
  else if 2 ∣ f then f else f + 1

/-- Python `round(q, 2)`: round-half-to-even at two decimal places. -/
def round2 (q : ℚ) : ℚ := (rhe (q * 100) : ℚ) / 100

/-- One workshop operation of the catalog (src/operations.py, `Operation`). -/
structure Operation where
  id : String
  name : String
  name_fr : String
  avg_duration_minutes : ℚ
  std_deviation_minutes : ℚ
  setup_time_minutes : ℚ
  defect_rate : ℚ
  workstation_count : ℕ
deriving DecidableEq, Repr

/-- The six catalog operations (src/operations.py, `OPERATIONS`). -/
def OPERATIONS : List Operation := [
  { id := "OP1", name := "Raw Material Preparation",
    name_fr := "Préparation Matière Première",
    avg_duration_minutes := 15.0, std_deviation_minutes := 3.0,
    setup_time_minutes := 5.0, defect_rate := 0.02, workstation_count := 2 },
  { id := "OP2", name := "CNC Machining", name_fr := "Usinage CNC",
    avg_duration_minutes := 45.0, std_deviation_minutes := 8.0,
    setup_time_minutes := 10.0, defect_rate := 0.05, workstation_count := 3 },
  { id := "OP3", name := "Heat Treatment", name_fr := "Traitement Thermique",
    avg_duration_minutes := 90.0, std_deviation_minutes := 10.0,
    setup_time_minutes := 15.0, defect_rate := 0.03, workstation_count := 1 },
  { id := "OP4", name := "Surface Finishing", name_fr := "Finition de Surface",
    avg_duration_minutes := 30.0, std_deviation_minutes := 5.0,
    setup_time_minutes := 8.0, defect_rate := 0.04, workstation_count := 2 },
  { id := "OP5", name := "Quality Control", name_fr := "Contrôle Qualité",
    avg_duration_minutes := 20.0, std_deviation_minutes := 4.0,
    setup_time_minutes := 3.0, defect_rate := 0.0, workstation_count := 2 },
  { id := "OP6", name := "Assembly & Packaging",
    name_fr := "Assemblage et Conditionnement",
    avg_duration_minutes := 25.0, std_deviation_minutes := 5.0,
    setup_time_minutes := 5.0, defect_rate := 0.02, workstation_count := 2 }]

/-- The standard flow (src/operations.py, `OPERATION_SEQUENCE`). -/
def OPERATION_SEQUENCE : List String := ["OP1", "OP2", "OP3", "OP4", "OP5", "OP6"]

/-- Rework routing (src/operations.py, `REWORK_ROUTES`), as an association
list mirroring the Python dict. -/
def REWORK_ROUTES : List (String × String) :=
  [("OP2", "OP2"), ("OP3", "OP3"), ("OP4", "OP4")]

/-- src/operations.py `get_operation_by_id`: linear scan, `ValueError` on a
missing identifier becomes `Except.error`. -/
def get_operation_by_id (ops : List Operation) (op_id : String) :
    Except String Operation :=
  match ops.find? (fun op => op.id == op_id) with
  | some op => .ok op
  | none => .error ("Operation not found: " ++ op_id)

/-- src/operations.py `get_operation_index`: `list.index`, whose `ValueError`
on a missing identifier becomes `Except.error`. -/
def get_operation_index (seq : List String) (op_id : String) :
    Except String ℕ :=
  match seq.findIdx? (fun s => s == op_id) with
  | some i => .ok i
  | none => .error ("ValueError: " ++ op_id ++ " is not in list")

/-- Python `dict.get(k, dflt)` over an association list. -/
def lookupD (routes : List (String × String)) (k : String) (dflt : String) :
    String :=
  match routes.find? (fun p => p.1 == k) with
  | some p => p.2
  | none => dflt

/-- Python dict assignment `d[k] = v` for an insertion-ordered dict held as
an association list: update in place if the key exists, else append. -/
def setDefect (l : List (String × Bool)) (k : String) (v : Bool) :
    List (String × Bool) :=
  if l.any (fun p => p.1 == k) then
    l.map (fun p => if p.1 == k then (k, v) else p)
  else l ++ [(k, v)]

/-- The outputs of the two seeded random generators of a run.  The k-th call
of each generator is a pure function of k (and of the distribution
parameters passed at the call site), which is exactly what seeding provides.
`exponential` and `normal` share the numpy generator (one common call
counter); `random` is the Python `random.random` generator. -/
structure Draws where
  exponential : ℕ → ℚ → ℚ
  normal : ℕ → ℚ → ℚ → ℚ
  random : ℕ → ℚ

/-- The QC loop of src/event_log_generator.py lines 100-111: walk the defect
dict in insertion order; each entry that `had_defect` consumes one
`random.random()` draw; the first one whose draw is below the fixed 0.8
detection rate is reported and the scan stops.  Returns the advanced draw
counter and the detected stage identifier, if any. -/
def qcScan (py : ℕ → ℚ) : ℕ → List (String × Bool) → ℕ × Option String
  | i, [] => (i, none)
  | i, (k, b) :: rest =>
    if b then
      (if py i < 0.8 then (i + 1, some k) else qcScan py (i + 1) rest)
    else qcScan py i rest

/-- Helper for `argminIdx`: Python `min(range(n), key=...)` keeps the first
index attaining the minimum, replacing only on a strictly smaller value. -/
def argminFrom : ℕ → ℕ → ℚ → List ℚ → ℕ
  | _, bi, _, [] => bi
  | i, bi, bv, x :: xs =>
    if x < bv then argminFrom (i + 1) i x xs else argminFrom (i + 1) bi bv xs

/-- Index of the earliest-available workstation slot
(`min(range(len(ws_availability)), key=lambda i: ws_availability[i])`):
first index of the minimal value. -/
def argminIdx : List ℚ → ℕ
  | [] => 0
  | x :: xs => argminFrom 1 0 x xs

/-- One emitted event (one row of the event log), with the exact field set
of src/event_log_generator.py lines 118-133 plus the two ghost fields
`case_num` and `ws_index` described in the header comment. -/
structure Event where
  case_num : ℤ
  case_id : String
  activity : String
  activity_fr : String
  operation_id : String
  timestamp_start : ℚ
  timestamp_end : ℚ
  resource : String
  ws_index : ℕ
  is_rework : Bool
  rework_count : ℕ
  wait_time_minutes : ℚ
  cycle_time_minutes : ℚ
  setup_time_minutes : ℚ
  total_time_minutes : ℚ
  defect_detected : Bool
deriving DecidableEq, Repr

/-- Ghost record of one fired rework redirect: which case, at which stage
the detection happened, and the sequence index re-entered. -/
structure Redirect where
  case_num : ℤ
  at_op : String
  target : ℕ
deriving DecidableEq, Repr

/-- Simulation state shared across cases: the workstation-availability dict
(`workstation_availability`), the two random-call counters, the accumulated
event list, and the ghost redirect log. -/
structure SimSt where
  ws : String → List ℚ
  npIdx : ℕ
  pyIdx : ℕ
  events : List Event
  redirects : List Redirect

/-- Per-case state: case number, the evolving `current_time` cursor, the
`operation_counts` dict, the `defects_by_op` insertion-ordered dict, and the
sequence cursor `op_idx` (an integer: the source briefly sets it to
`index - 1`, which can be -1). -/
structure CaseSt where
  case_num : ℤ
  current_time : ℚ
  counts : String → ℕ
  defects : List (String × Bool)
  opIdx : ℤ

/-- Python list indexing `seq[i]` for the sequence cursor (negative indices
count from the end; out-of-range yields a dummy that no reachable state
produces). -/
def seqGet (seq : List String) (i : ℤ) : String :=
  if 0 ≤ i then seq.getD i.toNat "" else seq.getD (i + seq.length).toNat ""

/-- A run of `k` zero characters. -/
def zeros (k : ℕ) : String := String.mk (List.replicate k '0')

/-- Python `f"{n:04d}"`. -/
def pad4 (n : ℤ) : String :=
  if n < 0 then
    let t := toString (-n)
    if t.length < 3 then "-" ++ zeros (3 - t.length) ++ t else "-" ++ t
  else
    let t := toString n
    if t.length < 4 then zeros (4 - t.length) ++ t else t

/-- One iteration of the `while op_idx < len(OPERATION_SEQUENCE)` loop
(src/event_log_generator.py lines 75-137): resolve the stage, pick the
earliest-available slot, draw the duration, commit the slot, handle
defects/inspection, emit the event, and advance the cursors. -/
def caseStep (ops : List Operation) (seq : List String)
    (routes : List (String × String)) (d : Draws) (s : SimSt) (c : CaseSt) :
    Except String (SimSt × CaseSt) :=
  let op_id := seqGet seq c.opIdx
  match get_operation_by_id ops op_id with
  | .error e => .error e
  | .ok op =>
    let ws_avail := s.ws op_id
    if ws_avail.isEmpty then .error "ValueError: min arg is an empty sequence"
    else
      let wsi := argminIdx ws_avail
      let earliest_available := ws_avail.getD wsi 0
      let wait_time := max 0 (earliest_available - c.current_time)
      let operation_start := max c.current_time earliest_available
      let cycle_time :=
        max 5 (d.normal s.npIdx op.avg_duration_minutes op.std_deviation_minutes)
      let total_time := cycle_time + op.setup_time_minutes
      let operation_end := operation_start + total_time
      let branch : Except String (ℕ × List (String × Bool) × ℤ × Bool × List Redirect) :=
        if op_id = "OP5" then
          match qcScan d.random s.pyIdx c.defects with
          | (i2, none) => .ok (i2, c.defects, c.opIdx, false, [])
          | (i2, some prev) =>
            let rework_op := lookupD routes prev prev
            match get_operation_index seq rework_op with
            | .error e => .error e
            | .ok ti =>
              .ok (i2, setDefect c.defects prev false, (ti : ℤ) - 1, true,
                   [{ case_num := c.case_num, at_op := op_id, target := ti }])
        else
          if d.random s.pyIdx < op.defect_rate then
            .ok (s.pyIdx + 1, setDefect c.defects op_id true, c.opIdx, false, [])
          else .ok (s.pyIdx + 1, c.defects, c.opIdx, false, [])
      match branch with
      | .error e => .error e
      | .ok (pyIdx2, defects2, base, dd, rds) =>
        let ev : Event := {
          case_num := c.case_num
          case_id := "CASE-" ++ pad4 c.case_num
          activity := op.name
          activity_fr := op.name_fr
          operation_id := op_id
          timestamp_start := operation_start
          timestamp_end := operation_end
          resource := op_id ++ "_WS" ++ toString (wsi + 1)
          ws_index := wsi
          is_rework := decide (1 < c.counts op_id + 1)
          rework_count := c.counts op_id + 1
          wait_time_minutes := round2 wait_time
          cycle_time_minutes := round2 cycle_time
          setup_time_minutes := round2 op.setup_time_minutes
          total_time_minutes := round2 total_time
          defect_detected := dd }
        .ok ({ ws := fun k => if k = op_id then ws_avail.set wsi operation_end
                              else s.ws k,
               npIdx := s.npIdx + 1, pyIdx := pyIdx2,
               events := s.events ++ [ev], redirects := s.redirects ++ rds },
             { c with
               counts := fun k => if k = op_id then c.counts op_id + 1
                                  else c.counts k,
               defects := defects2, current_time := operation_end,
               opIdx := base + 1 })

/-- The stage-traversal loop of one case, with explicit fuel: while the
sequence cursor is inside the Standard Sequence, perform `caseStep`.
Exhausted fuel with the loop still running yields "fuel exhausted". -/
def simCaseLoop (ops : List Operation) (seq : List String)
    (routes : List (String × String)) (d : Draws) :
    ℕ → SimSt → CaseSt → Except String (SimSt × CaseSt)
  | 0, s, c =>
    if c.opIdx < (seq.length : ℤ) then .error "fuel exhausted" else .ok (s, c)
  | fuel + 1, s, c =>
    if c.opIdx < (seq.length : ℤ) then
      match caseStep ops seq routes d s c with
      | .error e => .error e
      | .ok (s2, c2) => simCaseLoop ops seq routes d fuel s2 c2
    else .ok (s, c)

/-- Fresh per-case state (src/event_log_generator.py lines 68-74): cursor at
0, all visit counters 0, no latent defects, current time at the arrival
instant. -/
def initCase (n : ℤ) (arrival : ℚ) : CaseSt :=
  { case_num := n, current_time := arrival, counts := fun _ => 0,
    defects := [], opIdx := 0 }

/-- The per-case outer loop (lines 61-137): draw the exponential
inter-arrival gap, advance the arrival clock, and simulate the case
against the shared state. -/
def runCases (ops : List Operation) (seq : List String)
    (routes : List (String × String)) (d : Draws) (fuel : ℕ) :
    List ℤ → ℚ → SimSt → Except String SimSt
  | [], _, s => .ok s
  | n :: rest, arrival, s =>
    let inter := d.exponential s.npIdx 30
    let arrival2 := arrival + inter
    let s1 : SimSt := { s with npIdx := s.npIdx + 1 }
    match simCaseLoop ops seq routes d fuel s1 (initCase n arrival2) with
    | .error e => .error e
    | .ok (s2, _) => runCases ops seq routes d fuel rest arrival2 s2

/-- Initial shared state (lines 51-59): every operation's slot list filled
with the start date, built in catalog order exactly as the Python dict
comprehension (later duplicates would overwrite earlier ones). -/
def initSim (ops : List Operation) (start_date : ℚ) : SimSt :=
  { ws := ops.foldl
      (fun f op => fun k =>
        if k = op.id then List.replicate op.workstation_count start_date
        else f k)
      (fun _ => []),
    npIdx := 0, pyIdx := 0, events := [], redirects := [] }

/-- Python `range(1, num_cases + 1)`. -/
def caseNums (n : ℤ) : List ℤ :=
  (List.range n.toNat).map (fun (k : ℕ) => ((k : ℤ) + 1))

/-- The whole simulation phase of `generate_event_log` (lines 48-137),
producing the final shared state whose `events` field is the raw event list
in emission order. -/
def runSim (ops : List Operation) (seq : List String)
    (routes : List (String × String)) (num_cases : ℤ) (start_date : ℚ)
    (d : Draws) (fuel : ℕ) : Except String SimSt :=
  runCases ops seq routes d fuel (caseNums num_cases) start_date
    (initSim ops start_date)

/-- The sort key of `df.sort_values(["timestamp_start", "case_id"])`:
by start instant, ties broken by the case-identifier string. -/
def eventLe (a b : Event) : Prop :=
  a.timestamp_start < b.timestamp_start ∨
    (a.timestamp_start = b.timestamp_start ∧
      compare a.case_id b.case_id ≠ Ordering.gt)

instance : DecidableRel eventLe := fun a b => by
  unfold eventLe; infer_instance

/-- The DataFrame sort (line 143).  Pandas' algorithm is not stable, but on
logs produced by this simulator the key (start, case id) is duplicate-free,
so every comparison sort returns the same list. -/
def sortLog (l : List Event) : List Event := List.insertionSort eventLe l

/-- The `duration_minutes` column derived on line 146. -/
def duration_minutes (e : Event) : ℚ := e.timestamp_end - e.timestamp_start

/-- `generate_event_log` (lines 19-148): simulate, then build and sort the
DataFrame.  For an empty event list `pd.DataFrame([])` has no columns and
`sort_values` raises `KeyError` — modelled by the dedicated error. -/
def generate_event_log (ops : List Operation) (seq : List String)
    (routes : List (String × String)) (num_cases : ℤ) (start_date : ℚ)
    (d : Draws) (fuel : ℕ) : Except String (List Event) :=
  match runSim ops seq routes num_cases start_date d fuel with
  | .error e => .error e
  | .ok s =>
    if s.events.isEmpty then .error "KeyError: timestamp_start"
    else .ok (sortLog s.events)

/-- One row of the per-case lead-time table of `calculate_case_lead_times`
(src/event_log_generator.py lines 151-168). -/
structure CaseSummary where
  case_id : String
  start_time : ℚ
  end_time : ℚ
  total_operations : ℕ
  total_reworks : ℕ
  total_wait_time : ℚ
  total_cycle_time : ℚ
  lead_time_minutes : ℚ
  lead_time_hours : ℚ
deriving DecidableEq, Repr

/-- Minimum of a nonempty rational list (pandas group `min`). -/
def listMinQ : List ℚ → ℚ
  | [] => 0
  | x :: xs => xs.foldl min x

/-- Maximum of a nonempty rational list (pandas group `max`). -/
def listMaxQ : List ℚ → ℚ
  | [] => 0
  | x :: xs => xs.foldl max x

/-- The events of one case, in log order. -/
def caseEvents (log : List Event) (cid : String) : List Event :=
  log.filter (fun e => e.case_id == cid)

/-- The aggregated row of one case: group minimum of starts, maximum of
ends, row count, sum of the rework flags, sums of the wait and cycle
columns, and the two derived lead-time columns. -/
def caseSummary (log : List Event) (cid : String) : CaseSummary :=
  let evs := caseEvents log cid
  let st := listMinQ (evs.map (fun e => e.timestamp_start))
  let en := listMaxQ (evs.map (fun e => e.timestamp_end))
  { case_id := cid
    start_time := st
    end_time := en
    total_operations := evs.length
    total_reworks := (evs.filter (fun e => e.is_rework)).length
    total_wait_time := (evs.map (fun e => e.wait_time_minutes)).sum
    total_cycle_time := (evs.map (fun e => e.cycle_time_minutes)).sum
    lead_time_minutes := en - st
    lead_time_hours := (en - st) / 60 }

/-- String order used by pandas for the sorted group keys. -/
def strLe (a b : String) : Prop := compare a b ≠ Ordering.gt

instance : DecidableRel strLe := fun a b => by
  unfold strLe; infer_instance

/-- `calculate_case_lead_times` (lines 151-168): one summary row per
distinct case identifier, keys sorted ascending as pandas `groupby` does.
A pure reduction of the log: no state is read or written anywhere else. -/
def calculate_case_lead_times (log : List Event) : List CaseSummary :=
  (List.insertionSort strLe (log.map (fun e => e.case_id)).dedup).map
    (caseSummary log)

/-- `get_theoretical_lead_time` (src/operations.py lines 121-124), numeric
part. -/
def get_theoretical_lead_time (ops : List Operation) : ℚ :=
  (ops.map (fun op => op.avg_duration_minutes + op.setup_time_minutes)).sum

/-! Basic facts about the small helper functions. -/

/-- The stage identifier a step resolves. -/
def stepOpId (seq : List String) (c : CaseSt) : String := seqGet seq c.opIdx

/-- The chosen slot index of a step. -/
def stepWsi (s : SimSt) (op_id : String) : ℕ := argminIdx (s.ws op_id)

/-- The chosen slot's next-available instant. -/
def stepAvail (s : SimSt) (op_id : String) : ℚ :=
  (s.ws op_id).getD (stepWsi s op_id) 0

/-- The wait duration of a step. -/
def stepWait (s : SimSt) (c : CaseSt) (op_id : String) : ℚ :=
  max 0 (stepAvail s op_id - c.current_time)

/-- The start instant of a step. -/
def stepStart (s : SimSt) (c : CaseSt) (op_id : String) : ℚ :=
  max c.current_time (stepAvail s op_id)

/-- The cycle duration drawn by a step. -/
def stepCycle (d : Draws) (s : SimSt) (op : Operation) : ℚ :=
  max 5 (d.normal s.npIdx op.avg_duration_minutes op.std_deviation_minutes)

/-- The total duration of a step. -/
def stepTotal (d : Draws) (s : SimSt) (op : Operation) : ℚ :=
  stepCycle d s op + op.setup_time_minutes

/-- The end instant of a step. -/
def stepEnd (d : Draws) (s : SimSt) (c : CaseSt) (op_id : String)
    (op : Operation) : ℚ :=
  stepStart s c op_id + stepTotal d s op

/-- The event a step emits. -/
def stepEvent (d : Draws) (s : SimSt) (c : CaseSt) (op_id : String)
    (op : Operation) (dd : Bool) : Event :=
  { case_num := c.case_num
    case_id := "CASE-" ++ pad4 c.case_num
    activity := op.name
    activity_fr := op.name_fr
    operation_id := op_id
    timestamp_start := stepStart s c op_id
    timestamp_end := stepEnd d s c op_id op
    resource := op_id ++ "_WS" ++ toString (stepWsi s op_id + 1)
    ws_index := stepWsi s op_id
    is_rework := decide (1 < c.counts op_id + 1)
    rework_count := c.counts op_id + 1
    wait_time_minutes := round2 (stepWait s c op_id)
    cycle_time_minutes := round2 (stepCycle d s op)
    setup_time_minutes := round2 op.setup_time_minutes
    total_time_minutes := round2 (stepTotal d s op)
    defect_detected := dd }

theorem get_operation_by_id_ok {ops : List Operation} {op_id : String}
    {op : Operation} (h : get_operation_by_id ops op_id = .ok op) :
    op ∈ ops ∧ op.id = op_id := by
  unfold get_operation_by_id at h
  cases hf : ops.find? (fun op => op.id == op_id) with
  | none => rw [hf] at h; cases h
  | some op2 =>
    rw [hf] at h
    cases h
    exact ⟨List.mem_of_find?_eq_some hf, by
      have := List.find?_some hf; simpa using this⟩

theorem findIdx?_some_lt {α : Type} {p : α → Bool} :
    ∀ {l : List α} {i j : ℕ}, List.findIdx? p l i = some j →
      i ≤ j ∧ j - i < l.length
  | [], _, _, h => by simp [List.findIdx?] at h
  | x :: xs, i, j, h => by
    rw [List.findIdx?_cons] at h
    by_cases hp : p x = true
    · rw [if_pos hp] at h
      cases h
      simp
    · rw [if_neg hp] at h
      obtain ⟨h1, h2⟩ := findIdx?_some_lt h
      constructor
      · omega
      · simp only [List.length_cons]; omega

theorem get_operation_index_ok {seq : List String} {op_id : String} {i : ℕ}
    (h : get_operation_index seq op_id = .ok i) : i < seq.length := by
  unfold get_operation_index at h
  cases hf : seq.findIdx? (fun s => s == op_id) with
  | none => rw [hf] at h; cases h
  | some j =>
    rw [hf] at h
    cases h
    have := findIdx?_some_lt hf
    omega

theorem qcScan_some_mem {py : ℕ → ℚ} :
    ∀ {l : List (String × Bool)} {i j : ℕ} {k : String},
      qcScan py i l = (j, some k) → (k, true) ∈ l
  | [], i, j, k, h => by simp [qcScan] at h
  | (k2, b) :: rest, i, j, k, h => by
    unfold qcScan at h
    by_cases hb : b
    · subst hb
      rw [if_pos rfl] at h
      by_cases hd : py i < 0.8
      · rw [if_pos hd] at h
        cases h
        exact List.mem_cons_self _ _
      · rw [if_neg hd] at h
        exact List.mem_cons_of_mem _ (qcScan_some_mem h)
    · simp only [hb, if_false] at h
      exact List.mem_cons_of_mem _ (qcScan_some_mem h)

theorem mem_setDefect_true {l : List (String × Bool)} {k x : String} {v : Bool}
    (h : (x, true) ∈ setDefect l k v) :
    (x = k ∧ v = true) ∨ (x, true) ∈ l := by
  unfold setDefect at h
  by_cases ha : l.any (fun p => p.1 == k)
  · rw [if_pos ha] at h
    obtain ⟨p, hp, hpe⟩ := List.mem_map.mp h
    by_cases hk : p.1 == k
    · rw [if_pos hk] at hpe
      left
      exact ⟨(Prod.mk.injEq _ _ _ _ ▸ hpe.symm).1.symm ▸ rfl, ((Prod.mk.injEq _ _ _ _).mp hpe.symm).2.symm⟩
    · rw [if_neg hk] at hpe
      right
      exact hpe ▸ hp
  · rw [if_neg ha] at h
    rcases List.mem_append.mp h with h1 | h1
    · right; exact h1
    · left
      simp only [List.mem_singleton, Prod.mk.injEq] at h1
      exact ⟨h1.1, h1.2.symm⟩

theorem argminFrom_bound :
    ∀ (xs : List ℚ) (i bi : ℕ) (bv : ℚ) (N : ℕ), bi < N → i + xs.length ≤ N →
      argminFrom i bi bv xs < N
  | [], _, _, _, _, hb, _ => hb
  | x :: xs, i, bi, bv, N, hb, hl => by
    unfold argminFrom
    by_cases hx : x < bv
    · rw [if_pos hx]
      refine argminFrom_bound xs (i + 1) i x N ?_ ?_ <;>
        · simp only [List.length_cons] at hl; omega
    · rw [if_neg hx]
      refine argminFrom_bound xs (i + 1) bi bv N hb ?_
      simp only [List.length_cons] at hl; omega

theorem argminIdx_lt {l : List ℚ} (h : l ≠ []) : argminIdx l < l.length := by
  match l with
  | [] => exact absurd rfl h
  | x :: xs =>
    unfold argminIdx
    refine argminFrom_bound xs 1 0 x _ (by simp) (by simp [Nat.add_comm])

/-- Full characterization of a successful `caseStep`: the shared state gains
exactly one event and commits the chosen slot, the case state advances its
cursor, clock, and visit counter, and the defect handling took one of the
three source paths (non-inspection stage; inspection without detection;
inspection with detection and redirect). -/
theorem caseStep_spec {ops : List Operation} {seq : List String}
    {routes : List (String × String)} {d : Draws} {s : SimSt} {c : CaseSt}
    {s2 : SimSt} {c2 : CaseSt}
    (h : caseStep ops seq routes d s c = .ok (s2, c2)) :
    ∃ (op : Operation) (dd : Bool) (rds : List Redirect)
      (defects2 : List (String × Bool)) (base : ℤ) (py2 : ℕ),
      get_operation_by_id ops (stepOpId seq c) = .ok op ∧
      s.ws (stepOpId seq c) ≠ [] ∧
      s2 = { ws := fun k => if k = stepOpId seq c then
                     (s.ws (stepOpId seq c)).set (stepWsi s (stepOpId seq c))
                       (stepEnd d s c (stepOpId seq c) op)
                   else s.ws k,
             npIdx := s.npIdx + 1, pyIdx := py2,
             events := s.events ++ [stepEvent d s c (stepOpId seq c) op dd],
             redirects := s.redirects ++ rds } ∧
      c2 = { case_num := c.case_num,
             current_time := stepEnd d s c (stepOpId seq c) op,
             counts := fun k => if k = stepOpId seq c then
                         c.counts (stepOpId seq c) + 1
                       else c.counts k,
             defects := defects2, opIdx := base + 1 } ∧
      ((stepOpId seq c ≠ "OP5" ∧ dd = false ∧ rds = [] ∧ base = c.opIdx ∧
        py2 = s.pyIdx + 1 ∧
        (defects2 = setDefect c.defects (stepOpId seq c) true ∨
         defects2 = c.defects)) ∨
       (stepOpId seq c = "OP5" ∧
        ((qcScan d.random s.pyIdx c.defects = (py2, none) ∧ dd = false ∧
          rds = [] ∧ base = c.opIdx ∧ defects2 = c.defects) ∨
         (∃ (prev : String) (ti : ℕ),
           qcScan d.random s.pyIdx c.defects = (py2, some prev) ∧
           get_operation_index seq (lookupD routes prev prev) = .ok ti ∧
           dd = true ∧ rds = [⟨c.case_num, "OP5", ti⟩] ∧
           base = (ti : ℤ) - 1 ∧
           defects2 = setDefect c.defects prev false)))) := by
  simp only [caseStep] at h
  split at h
  · exact Except.noConfusion h
  · rename_i op hop
    split at h
    · exact Except.noConfusion h
    · rename_i hemp
      have hne : s.ws (seqGet seq c.opIdx) ≠ [] := by
        intro hE
        rw [hE] at hemp
        simp at hemp
      split at h
      · exact Except.noConfusion h
      · rename_i heq2
        injection h with h1
        injection h1 with hs hc2
        split at heq2
        · rename_i hqc
          split at heq2
          · rename_i i2 hscan
            injection heq2 with h2
            injection h2 with e1 h2
            injection h2 with e2 h2
            injection h2 with e3 h2
            injection h2 with e4 e5
            subst e1
            subst e2
            subst e3
            subst e4
            subst e5
            exact ⟨op, _, _, _, _, _, hop, hne, hs.symm, hc2.symm,
              Or.inr ⟨hqc, Or.inl ⟨hscan, rfl, rfl, rfl, rfl⟩⟩⟩
          · rename_i i2 prev hscan
            split at heq2
            · exact Except.noConfusion heq2
            · rename_i ti hti
              injection heq2 with h2
              injection h2 with e1 h2
              injection h2 with e2 h2
              injection h2 with e3 h2
              injection h2 with e4 e5
              subst e1
              subst e2
              subst e3
              subst e4
              subst e5
              refine ⟨op, _, _, _, _, _, hop, hne, hs.symm, hc2.symm,
                Or.inr ⟨hqc, Or.inr ⟨prev, ti, hscan, hti, rfl, ?_, rfl, rfl⟩⟩⟩
              rw [hqc]
        · rename_i hqc
          split at heq2
          · rename_i hdr
            injection heq2 with h2
            injection h2 with e1 h2
            injection h2 with e2 h2
            injection h2 with e3 h2
            injection h2 with e4 e5
            subst e1
            subst e2
            subst e3
            subst e4
            subst e5
            exact ⟨op, _, _, _, _, _, hop, hne, hs.symm, hc2.symm,
              Or.inl ⟨hqc, rfl, rfl, rfl, rfl, Or.inl rfl⟩⟩
          · rename_i hdr
            injection heq2 with h2
            injection h2 with e1 h2
            injection h2 with e2 h2
            injection h2 with e3 h2
            injection h2 with e4 e5
            subst e1
            subst e2
            subst e3
            subst e4
            subst e5
            exact ⟨op, _, _, _, _, _, hop, hne, hs.symm, hc2.symm,
              Or.inl ⟨hqc, rfl, rfl, rfl, rfl, Or.inr rfl⟩⟩

/-- A state invariant preserved by every successful step is preserved by the
whole traversal loop. -/
theorem simCaseLoop_inv {ops : List Operation} {seq : List String}
    {routes : List (String × String)} {d : Draws} (P : SimSt → Prop)
    (hstep : ∀ s c s2 c2, P s → caseStep ops seq routes d s c = .ok (s2, c2) →
      P s2) :
    ∀ (fuel : ℕ) (s : SimSt) (c : CaseSt) (s2 : SimSt) (c2 : CaseSt), P s →
      simCaseLoop ops seq routes d fuel s c = .ok (s2, c2) → P s2 := by
  intro fuel
  induction fuel with
  | zero =>
    intro s c s2 c2 hP h
    unfold simCaseLoop at h
    split at h
    · exact Except.noConfusion h
    · injection h with h1
      injection h1 with hs hc
      exact hs ▸ hP
  | succ n ih =>
    intro s c s2 c2 hP h
    unfold simCaseLoop at h
    split at h
    · cases hcs : caseStep ops seq routes d s c with
      | error e => rw [hcs] at h; exact Except.noConfusion h
      | ok pr =>
        rw [hcs] at h
        obtain ⟨sm, cm⟩ := pr
        exact ih sm cm s2 c2 (hstep s c sm cm hP hcs) h
    · injection h with h1
      injection h1 with hs hc
      exact hs ▸ hP

/-- Frame lemma: a case's traversal only appends events and redirects, all
carrying the case's own number, and never changes the case number. -/
theorem simCaseLoop_frame {ops : List Operation} {seq : List String}
    {routes : List (String × String)} {d : Draws} :
    ∀ (fuel : ℕ) {s : SimSt} {c : CaseSt} {s2 : SimSt} {c2 : CaseSt},
      simCaseLoop ops seq routes d fuel s c = .ok (s2, c2) →
      c2.case_num = c.case_num ∧
      ∃ new newr, s2.events = s.events ++ new ∧
        s2.redirects = s.redirects ++ newr ∧
        (∀ e ∈ new, e.case_num = c.case_num) ∧
        (∀ r ∈ newr, r.case_num = c.case_num) := by
  intro fuel
  induction fuel with
  | zero =>
    intro s c s2 c2 h
    unfold simCaseLoop at h
    split at h
    · exact Except.noConfusion h
    · injection h with h1
      injection h1 with hs hc
      subst hs
      subst hc
      exact ⟨rfl, [], [], by simp, by simp, by simp, by simp⟩
  | succ n ih =>
    intro s c s2 c2 h
    unfold simCaseLoop at h
    split at h
    · cases hcs : caseStep ops seq routes d s c with
      | error e => rw [hcs] at h; exact Except.noConfusion h
      | ok pr =>
        rw [hcs] at h
        obtain ⟨sm, cm⟩ := pr
        obtain ⟨hnum, new, newr, he, hr, hne, hnr⟩ := ih h
        obtain ⟨op, dd, rds, defects2, base, py2, _, _, hs2, hc2, _⟩ :=
          caseStep_spec hcs
        have hcnum : cm.case_num = c.case_num := by rw [hc2]
        refine ⟨by rw [hnum, hcnum], stepEvent d s c (stepOpId seq c) op dd :: new,
          rds ++ newr, ?_, ?_, ?_, ?_⟩
        · rw [he, hs2]; simp
        · rw [hr, hs2]; simp
        · intro e hme
          rcases List.mem_cons.mp hme with h1 | h1
          · rw [h1]; rfl
          · rw [hne e h1, hcnum]
        · intro r hmr
          rcases List.mem_append.mp hmr with h1 | h1
          · have hrd : ∀ x ∈ rds, x.case_num = c.case_num := by
              rcases caseStep_spec hcs with
                ⟨op2, dd2, rds2, df2, b2, p2, _, _, hs2b, _, hbr⟩
              rw [hs2] at hs2b
              have hrds : rds = rds2 := by
                have := congrArg SimSt.redirects hs2b
                simpa using this
              subst hrds
              rcases hbr with ⟨_, _, hrds0, _⟩ | ⟨_, hbr2⟩
              · rw [hrds0]; simp
              · rcases hbr2 with ⟨_, _, hrds0, _⟩ | ⟨prev, ti, _, _, _, hrds0, _⟩
                · rw [hrds0]; simp
                · rw [hrds0]; simp
            exact hrd r h1
          · rw [hnr r h1, hcnum]
    · injection h with h1
      injection h1 with hs hc
      subst hs
      subst hc
      exact ⟨rfl, [], [], by simp, by simp, by simp, by simp⟩

/-- A state invariant preserved by steps and insensitive to the numpy call
counter is preserved by the whole per-case outer loop. -/
theorem runCases_inv {ops : List Operation} {seq : List String}
    {routes : List (String × String)} {d : Draws} {fuel : ℕ}
    (P : SimSt → Prop)
    (hstep : ∀ s c s2 c2, P s → caseStep ops seq routes d s c = .ok (s2, c2) →
      P s2)
    (hnp : ∀ s, P s → P { s with npIdx := s.npIdx + 1 }) :
    ∀ (ns : List ℤ) (arr : ℚ) (s s2 : SimSt), P s →
      runCases ops seq routes d fuel ns arr s = .ok s2 → P s2 := by
  intro ns
  induction ns with
  | nil =>
    intro arr s s2 hP h
    unfold runCases at h
    injection h with h1
    exact h1 ▸ hP
  | cons n rest ih =>
    intro arr s s2 hP h
    simp only [runCases] at h
    cases hcl : simCaseLoop ops seq routes d fuel
        { s with npIdx := s.npIdx + 1 }
        (initCase n (arr + d.exponential s.npIdx 30)) with
    | error e => rw [hcl] at h; exact Except.noConfusion h
    | ok pr =>
      rw [hcl] at h
      obtain ⟨sm, cm⟩ := pr
      exact ih _ sm s2 (simCaseLoop_inv P hstep fuel _ _ sm cm (hnp s hP) hcl) h

/-- `runCases_inv` lifted to a whole run. -/
theorem runSim_inv {ops : List Operation} {seq : List String}
    {routes : List (String × String)} {d : Draws} {fuel : ℕ}
    (P : SimSt → Prop)
    (hstep : ∀ s c s2 c2, P s → caseStep ops seq routes d s c = .ok (s2, c2) →
      P s2)
    (hnp : ∀ s, P s → P { s with npIdx := s.npIdx + 1 })
    {n : ℤ} {t0 : ℚ} {s2 : SimSt} (hinit : P (initSim ops t0))
    (h : runSim ops seq routes n t0 d fuel = .ok s2) : P s2 :=
  runCases_inv P hstep hnp (caseNums n) t0 (initSim ops t0) s2 hinit h

/-- Round-half-to-even of an integer is that integer. -/
theorem rhe_intCast (m : ℤ) : rhe (m : ℚ) = m := by
  simp only [rhe, Int.floor_intCast]
  have h0 : (m : ℚ) - m = 0 := by ring
  rw [h0]
  norm_num

/-- Round-half-to-even commutes with translation by an even integer (the
parity used in the tie-break is preserved). -/
theorem rhe_add_two_mul (q : ℚ) (m : ℤ) :
    rhe (q + ((2 * m : ℤ) : ℚ)) = rhe q + 2 * m := by
  have hf : ⌊q + ((2 * m : ℤ) : ℚ)⌋ = ⌊q⌋ + 2 * m := Int.floor_add_int q (2 * m)
  simp only [rhe, hf]
  have hr : q + ((2 * m : ℤ) : ℚ) - ((⌊q⌋ + 2 * m : ℤ) : ℚ) = q - ⌊q⌋ := by
    push_cast
    ring
  rw [hr]
  by_cases h1 : q - ⌊q⌋ < 1 / 2
  · rw [if_pos h1, if_pos h1]
  · rw [if_neg h1, if_neg h1]
    by_cases h2 : 1 / 2 < q - ⌊q⌋
    · rw [if_pos h2, if_pos h2]
      ring
    · rw [if_neg h2, if_neg h2]
      have hpar : (2 ∣ ⌊q⌋ + 2 * m) ↔ 2 ∣ ⌊q⌋ := by omega
      by_cases h3 : 2 ∣ ⌊q⌋
      · rw [if_pos h3, if_pos (hpar.mpr h3)]
      · rw [if_neg h3, if_neg (fun hh => h3 (hpar.mp hh))]
        ring

/-- Python `round(·, 2)` commutes with adding an integer. -/
theorem round2_add_int (q : ℚ) (n : ℤ) : round2 (q + n) = round2 q + n := by
  unfold round2
  have h100 : (q + (n : ℚ)) * 100 = q * 100 + ((2 * (50 * n) : ℤ) : ℚ) := by
    push_cast
    ring
  rw [h100, rhe_add_two_mul]
  push_cast
  ring

/-- Python `round(·, 2)` fixes integers. -/
theorem round2_intCast (n : ℤ) : round2 (n : ℚ) = n := by
  unfold round2
  have h100 : ((n : ℚ)) * 100 = ((100 * n : ℤ) : ℚ) := by
    push_cast
    ring
  rw [h100, rhe_intCast]
  push_cast
  ring

/-- Python `round(·, 2)` preserves nonnegativity. -/
theorem round2_nonneg {q : ℚ} (h : 0 ≤ q) : 0 ≤ round2 q := by
  unfold round2
  have h2 : (0 : ℤ) ≤ rhe (q * 100) := by
    have hq : (0 : ℚ) ≤ q * 100 := by positivity
    have hfl : (0 : ℤ) ≤ ⌊q * 100⌋ := Int.floor_nonneg.mpr hq
    simp only [rhe]
    by_cases h1 : q * 100 - ⌊q * 100⌋ < 1 / 2
    · rw [if_pos h1]
      exact hfl
    · rw [if_neg h1]
      by_cases hlt : 1 / 2 < q * 100 - ⌊q * 100⌋
      · rw [if_pos hlt]
        omega
      · rw [if_neg hlt]
        by_cases h3 : 2 ∣ ⌊q * 100⌋
        · rw [if_pos h3]
          exact hfl
        · rw [if_neg h3]
          omega
  have h3 : (0 : ℚ) ≤ (rhe (q * 100) : ℚ) := Int.cast_nonneg.mpr h2
  exact div_nonneg h3 (by norm_num)

/-- Every catalog operation has an integer setup duration (needed for the
exact conservation of rounded durations) and a nonnegative setup duration. -/
theorem OPERATIONS_setup_int :
    ∀ op ∈ OPERATIONS, ∃ m : ℤ, op.setup_time_minutes = (m : ℚ) ∧ 0 ≤ m := by
  intro op h
  fin_cases h
  · exact ⟨5, by norm_num [OPERATIONS], by norm_num⟩
  · exact ⟨10, by norm_num [OPERATIONS], by norm_num⟩
  · exact ⟨15, by norm_num [OPERATIONS], by norm_num⟩
  · exact ⟨8, by norm_num [OPERATIONS], by norm_num⟩
  · exact ⟨3, by norm_num [OPERATIONS], by norm_num⟩
  · exact ⟨5, by norm_num [OPERATIONS], by norm_num⟩

/-- The total duration of a step is nonnegative for catalog operations
(cycle is floored at 5 and every catalog setup duration is nonnegative). -/
theorem stepTotal_nonneg {d : Draws} {s : SimSt} {op : Operation}
    (h : op ∈ OPERATIONS) : 0 ≤ stepTotal d s op := by
  obtain ⟨m, hm, hm0⟩ := OPERATIONS_setup_int op h
  unfold stepTotal stepCycle
  rw [hm]
  have h5 : (0 : ℚ) ≤
      max 5 (d.normal s.npIdx op.avg_duration_minutes op.std_deviation_minutes) :=
    le_trans (by norm_num) (le_max_left _ _)
  have hmq : (0 : ℚ) ≤ (m : ℚ) := by exact_mod_cast hm0
  linarith

/-- The events assigned to the workstation slot `i` of stage `k`, in
assignment order. -/
def slotEvents (evs : List Event) (k : String) (i : ℕ) : List Event :=
  evs.filter (fun e => e.operation_id == k && e.ws_index == i)

/-- Invariant for slot occupancy: per slot, the assigned intervals never
overlap and all their end instants are at most the slot's recorded
next-available instant. -/
def SlotInv (s : SimSt) : Prop :=
  ∀ k i, List.Chain' (fun a b => a.timestamp_end ≤ b.timestamp_start)
      (slotEvents s.events k i) ∧
    ∀ e ∈ slotEvents s.events k i, e.timestamp_end ≤ (s.ws k).getD i 0

theorem slotEvents_append (l1 l2 : List Event) (k : String) (i : ℕ) :
    slotEvents (l1 ++ l2) k i = slotEvents l1 k i ++ slotEvents l2 k i := by
  simp [slotEvents]

theorem slotEvents_singleton (e : Event) (k : String) (i : ℕ) :
    slotEvents [e] k i =
      if e.operation_id = k ∧ e.ws_index = i then [e] else [] := by
  by_cases h1 : e.operation_id = k <;> by_cases h2 : e.ws_index = i <;>
    simp [slotEvents, h1, h2]

theorem slotInv_step {d : Draws} (s : SimSt) (c : CaseSt) (s2 : SimSt)
    (c2 : CaseSt) (hInv : SlotInv s)
    (hcs : caseStep OPERATIONS OPERATION_SEQUENCE REWORK_ROUTES d s c =
      .ok (s2, c2)) : SlotInv s2 := by
  obtain ⟨op, dd, rds, df2, base, py2, hop, hne, hs2, hc2, _⟩ := caseStep_spec hcs
  have hmem := (get_operation_by_id_ok hop).1
  have hwslt : stepWsi s (stepOpId OPERATION_SEQUENCE c) <
      (s.ws (stepOpId OPERATION_SEQUENCE c)).length := argminIdx_lt hne
  have havail : stepAvail s (stepOpId OPERATION_SEQUENCE c) ≤
      stepStart s c (stepOpId OPERATION_SEQUENCE c) := le_max_right _ _
  have hse : stepStart s c (stepOpId OPERATION_SEQUENCE c) ≤
      stepEnd d s c (stepOpId OPERATION_SEQUENCE c) op :=
    le_add_of_nonneg_right (stepTotal_nonneg hmem)
  have hws2 : ∀ k, s2.ws k =
      if k = stepOpId OPERATION_SEQUENCE c then
        (s.ws (stepOpId OPERATION_SEQUENCE c)).set
          (stepWsi s (stepOpId OPERATION_SEQUENCE c))
          (stepEnd d s c (stepOpId OPERATION_SEQUENCE c) op)
      else s.ws k := by
    intro k
    rw [hs2]
  have hev2 : s2.events =
      s.events ++ [stepEvent d s c (stepOpId OPERATION_SEQUENCE c) op dd] := by
    rw [hs2]
  intro k i
  rw [hev2, hws2 k, slotEvents_append, slotEvents_singleton]
  by_cases hk : k = stepOpId OPERATION_SEQUENCE c
  · by_cases hi : i = stepWsi s (stepOpId OPERATION_SEQUENCE c)
    · rw [if_pos ⟨hk.symm, hi.symm⟩, if_pos hk]
      subst hk
      subst hi
      obtain ⟨hch, hbd⟩ := hInv (stepOpId OPERATION_SEQUENCE c)
        (stepWsi s (stepOpId OPERATION_SEQUENCE c))
      have hnewavail :
          (((s.ws (stepOpId OPERATION_SEQUENCE c)).set
            (stepWsi s (stepOpId OPERATION_SEQUENCE c))
            (stepEnd d s c (stepOpId OPERATION_SEQUENCE c) op)).getD
            (stepWsi s (stepOpId OPERATION_SEQUENCE c)) 0) =
          stepEnd d s c (stepOpId OPERATION_SEQUENCE c) op := by
        rw [List.getD_eq_getElem?_getD, List.getElem?_set_self hwslt]
        rfl
      rw [hnewavail]
      constructor
      · refine List.Chain'.append hch (List.chain'_singleton _) ?_
        intro x hx y hy
        simp only [List.head?_cons, Option.mem_def, Option.some.injEq] at hy
        subst hy
        have hxm : x ∈ slotEvents s.events (stepOpId OPERATION_SEQUENCE c)
            (stepWsi s (stepOpId OPERATION_SEQUENCE c)) :=
          List.mem_of_mem_getLast? hx
        show x.timestamp_end ≤ stepStart s c (stepOpId OPERATION_SEQUENCE c)
        exact le_trans (hbd x hxm) havail
      · intro e he
        rcases List.mem_append.mp he with h1 | h1
        · exact le_trans (hbd e h1) (le_trans havail hse)
        · simp only [List.mem_singleton] at h1
          subst h1
          show stepEnd d s c (stepOpId OPERATION_SEQUENCE c) op ≤ _
          exact le_refl _
    · rw [if_neg (by rintro ⟨h1, h2⟩; exact hi h2.symm), if_pos hk, List.append_nil]
      subst hk
      obtain ⟨hch, hbd⟩ := hInv (stepOpId OPERATION_SEQUENCE c) i
      have hkeep : (((s.ws (stepOpId OPERATION_SEQUENCE c)).set
          (stepWsi s (stepOpId OPERATION_SEQUENCE c))
          (stepEnd d s c (stepOpId OPERATION_SEQUENCE c) op)).getD i 0) =
          (s.ws (stepOpId OPERATION_SEQUENCE c)).getD i 0 := by
        rw [List.getD_eq_getElem?_getD,
          List.getElem?_set_ne (fun hh => hi hh.symm),
          ← List.getD_eq_getElem?_getD]
      rw [hkeep]
      exact ⟨hch, hbd⟩
  · rw [if_neg (by rintro ⟨h1, h2⟩; exact hk h1.symm), if_neg hk, List.append_nil]
    exact hInv k i

/-- Concrete draw streams for witnesses: zero inter-arrival gaps and
duration draws, and uniform draws of 1, which trigger no defect and no
detection. -/
def calmDraws : Draws :=
  { exponential := fun _ _ => 0, normal := fun _ _ _ => 0,
    random := fun _ => 1 }

theorem slotInv_init (t0 : ℚ) : SlotInv (initSim OPERATIONS t0) := by
  intro k i
  constructor
  · simp [slotEvents, initSim]
  · intro e he
    simp [slotEvents, initSim] at he

/-- C2: for every stage and every workstation slot, the intervals assigned
to that slot, in assignment order, never overlap: each start instant is at
least the previous end instant. -/
theorem slot_intervals_never_overlap {n : ℤ} {t0 : ℚ} {d : Draws} {fuel : ℕ}
    {s : SimSt}
    (h : runSim OPERATIONS OPERATION_SEQUENCE REWORK_ROUTES n t0 d fuel =
      .ok s) :
    ∀ k i, List.Chain' (fun a b => a.timestamp_end ≤ b.timestamp_start)
      (slotEvents s.events k i) := by
  have hP := runSim_inv SlotInv
    (fun s c s2 c2 hP hcs => slotInv_step s c s2 c2 hP hcs)
    (fun s hP => hP) (slotInv_init t0) h
  exact fun k i => (hP k i).1

/-- Every in-range sequence position resolves to a catalog operation whose
defect rate is below the 0.8 detection threshold, and the resolved
identifier is a member of the Standard Sequence. -/
theorem seq_ops (j : ℤ) (h0 : 0 ≤ j) (hlt : j < 6) :
    ∃ op, get_operation_by_id OPERATIONS (seqGet OPERATION_SEQUENCE j) =
        .ok op ∧ op.defect_rate < 0.8 ∧
      seqGet OPERATION_SEQUENCE j ∈ OPERATION_SEQUENCE := by
  have hj : j = 0 ∨ j = 1 ∨ j = 2 ∨ j = 3 ∨ j = 4 ∨ j = 5 := by omega
  rcases hj with hj | hj | hj | hj | hj | hj <;> subst hj <;>
    exact ⟨_, rfl, by norm_num, by simp [seqGet, OPERATION_SEQUENCE]⟩

/-- The workstation dict never maps a catalog stage to an empty slot list:
preserved shape of the shared state. -/
def WsInv (s : SimSt) : Prop :=
  ∀ kk ∈ OPERATION_SEQUENCE, s.ws kk ≠ []

/-- With every uniform draw at or above the 0.8 detection threshold, a step
neither records a defect nor fires a redirect: the case simply advances to
the next sequence position with its (empty) defect dict intact. -/
theorem noDefect_caseStep {routes : List (String × String)} {d : Draws}
    (hd : ∀ i, (0.8 : ℚ) ≤ d.random i)
    {s : SimSt} {c : CaseSt} (h0 : 0 ≤ c.opIdx) (hlt : c.opIdx < 6)
    (hdef : c.defects = []) (hws : WsInv s) :
    ∃ s2 c2, caseStep OPERATIONS OPERATION_SEQUENCE routes d s c =
        .ok (s2, c2) ∧
      c2.defects = [] ∧ c2.opIdx = c.opIdx + 1 ∧
      c2.case_num = c.case_num ∧ WsInv s2 ∧
      s2.events.length = s.events.length + 1 := by
  obtain ⟨op, hop, hrate, hmem⟩ := seq_ops c.opIdx h0 hlt
  have hwsne := hws (seqGet OPERATION_SEQUENCE c.opIdx) hmem
  have hfalse : (s.ws (seqGet OPERATION_SEQUENCE c.opIdx)).isEmpty = false := by
    cases hcase : s.ws (seqGet OPERATION_SEQUENCE c.opIdx) with
    | nil => exact absurd hcase hwsne
    | cons a l => rfl
  have hwsinv : ∀ (v : ℚ) (i : ℕ), WsInv
      { ws := fun k => if k = seqGet OPERATION_SEQUENCE c.opIdx then
                 (s.ws (seqGet OPERATION_SEQUENCE c.opIdx)).set i v
               else s.ws k,
        npIdx := s.npIdx + 1, pyIdx := s.pyIdx + 1,
        events := s.events ++
          [stepEvent d s c (seqGet OPERATION_SEQUENCE c.opIdx) op false],
        redirects := s.redirects } := by
    intro v i kk hkk
    simp only
    by_cases hk : kk = seqGet OPERATION_SEQUENCE c.opIdx
    · rw [if_pos hk]
      intro hE
      have := congrArg List.length hE
      simp only [List.length_set, List.length_nil] at this
      exact hwsne (List.length_eq_zero.mp this)
    · rw [if_neg hk]
      exact hws kk hkk
  simp only [caseStep, hop, hfalse, Bool.false_eq_true, if_false]
  by_cases hqc : seqGet OPERATION_SEQUENCE c.opIdx = "OP5"
  · rw [if_pos hqc, hdef]
    simp only [qcScan]
    refine ⟨_, _, rfl, rfl, rfl, rfl, hwsinv _ _, by simp⟩
  · rw [if_neg hqc]
    have hnd : ¬ (d.random s.pyIdx < op.defect_rate) :=
      not_lt.mpr (le_trans (le_of_lt hrate) (hd s.pyIdx))
    rw [if_neg hnd]
    refine ⟨_, _, rfl, hdef, rfl, rfl, hwsinv _ _, by simp⟩

/-- With calm draws (all uniform draws ≥ 0.8) a case whose remaining
distance to the end of the sequence is `m` finishes in at most `m` loop
iterations and lands exactly past the last index. -/
theorem noDefect_simCaseLoop {routes : List (String × String)} {d : Draws}
    (hd : ∀ i, (0.8 : ℚ) ≤ d.random i) :
    ∀ (m : ℕ) (fuel : ℕ) (s : SimSt) (c : CaseSt), c.defects = [] →
      0 ≤ c.opIdx → c.opIdx + m = 6 → m ≤ fuel → WsInv s →
      ∃ s2 c2, simCaseLoop OPERATIONS OPERATION_SEQUENCE routes d fuel
          s c = .ok (s2, c2) ∧ c2.opIdx = 6 ∧ WsInv s2 ∧
        s2.events.length = s.events.length + m := by
  intro m
  induction m with
  | zero =>
    intro fuel s c hdef h0 hsum hle hws
    have h6 : c.opIdx = 6 := by omega
    have hcond : ¬ (c.opIdx < (OPERATION_SEQUENCE.length : ℤ)) := by
      rw [h6]
      norm_num [OPERATION_SEQUENCE]
    cases fuel with
    | zero =>
      unfold simCaseLoop
      rw [if_neg hcond]
      exact ⟨s, c, rfl, h6, hws, by simp⟩
    | succ f =>
      unfold simCaseLoop
      rw [if_neg hcond]
      exact ⟨s, c, rfl, h6, hws, by simp⟩
  | succ k ih =>
    intro fuel s c hdef h0 hsum hle hws
    have hlt : c.opIdx < 6 := by omega
    have hcond : c.opIdx < (OPERATION_SEQUENCE.length : ℤ) := by
      norm_num [OPERATION_SEQUENCE]
      omega
    obtain ⟨f, rfl⟩ : ∃ f, fuel = f + 1 := ⟨fuel - 1, by omega⟩
    obtain ⟨s2, c2, hstep, hdef2, hidx2, _, hws2, hlen2⟩ :=
      noDefect_caseStep hd h0 hlt hdef hws
    unfold simCaseLoop
    rw [if_pos hcond, hstep]
    obtain ⟨s3, c3, hloop, hidx3, hws3, hlen3⟩ :=
      ih f s2 c2 hdef2 (by omega) (by omega) (by omega) hws2
    exact ⟨s3, c3, hloop, hidx3, hws3, by omega⟩

/-- The initial workstation dict maps every sequence stage to a nonempty
slot list. -/
theorem initSim_wsInv (t0 : ℚ) : WsInv (initSim OPERATIONS t0) := by
  intro kk hkk
  fin_cases hkk <;> simp [initSim, OPERATIONS]

/-- With calm draws every run of any case count succeeds, given per-case
fuel of at least 6. -/
theorem calm_runCases {routes : List (String × String)} {d : Draws}
    (hd : ∀ i, (0.8 : ℚ) ≤ d.random i)
    {fuel : ℕ} (hf : 6 ≤ fuel) :
    ∀ (ns : List ℤ) (arr : ℚ) (s : SimSt), WsInv s →
      ∃ s2, runCases OPERATIONS OPERATION_SEQUENCE routes d fuel ns
        arr s = .ok s2 ∧
        s2.events.length = s.events.length + 6 * ns.length := by
  intro ns
  induction ns with
  | nil => exact fun arr s _ => ⟨s, rfl, by simp⟩
  | cons n rest ih =>
    intro arr s hws
    obtain ⟨s2, c2, hloop, _, hws2, hlen2⟩ := noDefect_simCaseLoop hd 6 fuel
      { s with npIdx := s.npIdx + 1 }
      (initCase n (arr + d.exponential s.npIdx 30)) rfl
      (by simp [initCase]) (by simp [initCase]) hf hws
    obtain ⟨s3, hrest, hlen3⟩ := ih (arr + d.exponential s.npIdx 30) s2 hws2
    refine ⟨s3, ?_, ?_⟩
    · simp only [runCases]
      rw [hloop]
      exact hrest
    · simp only [List.length_cons]
      have hse : SimSt.events { s with npIdx := s.npIdx + 1 } = s.events :=
        rfl
      rw [hse] at hlen2
      omega

/-- With calm draws `runSim` always succeeds (per-case fuel at least 6). -/
theorem calm_runSim {routes : List (String × String)} {d : Draws}
    (hd : ∀ i, (0.8 : ℚ) ≤ d.random i)
    {fuel : ℕ} (hf : 6 ≤ fuel) (n : ℤ) (t0 : ℚ) :
    ∃ s, runSim OPERATIONS OPERATION_SEQUENCE routes n t0 d fuel =
      .ok s ∧ s.events.length = 6 * (caseNums n).length := by
  unfold runSim
  have h := @calm_runCases routes d hd fuel hf (caseNums n) t0
    (initSim OPERATIONS t0) (initSim_wsInv t0)
  simpa [initSim] using h

theorem calmDraws_ge : ∀ i, (0.8 : ℚ) ≤ calmDraws.random i := by
  intro i
  norm_num [calmDraws]

/-- Witness for C2 at a concrete two-case run. -/
theorem slot_intervals_never_overlap_witness :
    ∃ s, runSim OPERATIONS OPERATION_SEQUENCE REWORK_ROUTES 2 0 calmDraws 6 =
      .ok s ∧
      ∀ k i, List.Chain' (fun a b => a.timestamp_end ≤ b.timestamp_start)
        (slotEvents s.events k i) := by
  obtain ⟨s, hs, _⟩ :=
    @calm_runSim REWORK_ROUTES calmDraws calmDraws_ge 6 (le_refl 6) 2 0
  exact ⟨s, hs, slot_intervals_never_overlap hs⟩

/-- Invariant for C10: the defect-detected flag is only ever set at the
inspection stage, and every ghost-recorded redirect fired at the inspection
stage. -/
def FlagInv (s : SimSt) : Prop :=
  (∀ e ∈ s.events, e.operation_id ≠ "OP5" → e.defect_detected = false) ∧
  ∀ r ∈ s.redirects, r.at_op = "OP5"

theorem flagInv_step {d : Draws} (s : SimSt) (c : CaseSt) (s2 : SimSt)
    (c2 : CaseSt) (hInv : FlagInv s)
    (hcs : caseStep OPERATIONS OPERATION_SEQUENCE REWORK_ROUTES d s c =
      .ok (s2, c2)) : FlagInv s2 := by
  obtain ⟨op, dd, rds, df2, base, py2, hop, hne, hs2, hc2, hbr⟩ :=
    caseStep_spec hcs
  have hev2 : s2.events =
      s.events ++ [stepEvent d s c (stepOpId OPERATION_SEQUENCE c) op dd] := by
    rw [hs2]
  have hrd2 : s2.redirects = s.redirects ++ rds := by
    rw [hs2]
  constructor
  · intro e he hne5
    rw [hev2] at he
    rcases List.mem_append.mp he with h1 | h1
    · exact hInv.1 e h1 hne5
    · simp only [List.mem_singleton] at h1
      subst h1
      rcases hbr with ⟨hq, hdd, _⟩ | ⟨hq, _⟩
      · exact hdd
      · exact absurd hq hne5
  · intro r hr
    rw [hrd2] at hr
    rcases List.mem_append.mp hr with h1 | h1
    · exact hInv.2 r h1
    · rcases hbr with ⟨_, _, hrds, _⟩ | ⟨_, ⟨_, _, hrds, _⟩ | ⟨p, ti, _, _, _, hrds, _⟩⟩
      · rw [hrds] at h1
        simp at h1
      · rw [hrds] at h1
        simp at h1
      · rw [hrds] at h1
        simp only [List.mem_singleton] at h1
        rw [h1]

/-- C10: a latent defect at the final assembly stage (which sits after the
inspection stage and has a nonzero defect probability) is never detected
and never causes rework: every event of a stage other than the inspection
stage "OP5" — in particular every "OP6" event — carries a false
defect-detected flag, and every fired redirect happened at "OP5". -/
theorem post_inspection_defects_never_detected {n : ℤ} {t0 : ℚ} {d : Draws}
    {fuel : ℕ} {s : SimSt}
    (h : runSim OPERATIONS OPERATION_SEQUENCE REWORK_ROUTES n t0 d fuel =
      .ok s) :
    (∃ op6, get_operation_by_id OPERATIONS "OP6" = .ok op6 ∧
      0 < op6.defect_rate) ∧
    (∀ e ∈ s.events, e.operation_id ≠ "OP5" → e.defect_detected = false) ∧
    ∀ r ∈ s.redirects, r.at_op = "OP5" := by
  have hP := runSim_inv FlagInv
    (fun s c s2 c2 hP hcs => flagInv_step s c s2 c2 hP hcs)
    (fun s hP => hP)
    (⟨fun e he => absurd he (by simp [initSim]),
      fun r hr => absurd hr (by simp [initSim])⟩) h
  exact ⟨⟨_, rfl, by norm_num⟩, hP.1, hP.2⟩

/-- Witness for C10 at a concrete one-case run. -/
theorem post_inspection_defects_never_detected_witness :
    ∃ s, runSim OPERATIONS OPERATION_SEQUENCE REWORK_ROUTES 1 0 calmDraws 7 =
      .ok s ∧
      ∀ e ∈ s.events, e.operation_id ≠ "OP5" → e.defect_detected = false := by
  obtain ⟨s, hs, _⟩ :=
    @calm_runSim REWORK_ROUTES calmDraws calmDraws_ge 7 (by norm_num) 1 0
  exact ⟨s, hs, (post_inspection_defects_never_detected hs).2.1⟩

/-- Invariant for C8: every recorded event's timing fields are exactly the
floored normal draw plus the stage's setup, with the recorded totals
conserving cycle + setup after rounding. -/
def DurInv (d : Draws) (s : SimSt) : Prop :=
  ∀ e ∈ s.events, ∃ op k,
    get_operation_by_id OPERATIONS e.operation_id = .ok op ∧
    e.timestamp_end = e.timestamp_start +
      (max 5 (d.normal k op.avg_duration_minutes op.std_deviation_minutes) +
        op.setup_time_minutes) ∧
    e.cycle_time_minutes =
      round2 (max 5 (d.normal k op.avg_duration_minutes
        op.std_deviation_minutes)) ∧
    e.setup_time_minutes = round2 op.setup_time_minutes ∧
    e.total_time_minutes = e.cycle_time_minutes + e.setup_time_minutes

theorem durInv_step {d : Draws} (s : SimSt) (c : CaseSt) (s2 : SimSt)
    (c2 : CaseSt) (hInv : DurInv d s)
    (hcs : caseStep OPERATIONS OPERATION_SEQUENCE REWORK_ROUTES d s c =
      .ok (s2, c2)) : DurInv d s2 := by
  obtain ⟨op, dd, rds, df2, base, py2, hop, hne, hs2, hc2, hbr⟩ :=
    caseStep_spec hcs
  have hev2 : s2.events =
      s.events ++ [stepEvent d s c (stepOpId OPERATION_SEQUENCE c) op dd] := by
    rw [hs2]
  intro e he
  rw [hev2] at he
  rcases List.mem_append.mp he with h1 | h1
  · exact hInv e h1
  · simp only [List.mem_singleton] at h1
    subst h1
    obtain ⟨m, hm, _⟩ := OPERATIONS_setup_int op (get_operation_by_id_ok hop).1
    refine ⟨op, s.npIdx, hop, rfl, rfl, rfl, ?_⟩
    show round2 (stepTotal d s op) = round2 (stepCycle d s op) +
      round2 op.setup_time_minutes
    unfold stepTotal
    rw [hm, round2_add_int, round2_intCast]

/-- C8: for every emitted event the recorded total duration equals the
recorded cycle duration plus the recorded setup duration exactly; the cycle
duration is the draw max(5, normal(mean, std)) of the stage, and the end
instant is the start instant plus the unrounded total duration. -/
theorem duration_conservation {n : ℤ} {t0 : ℚ} {d : Draws} {fuel : ℕ}
    {s : SimSt}
    (h : runSim OPERATIONS OPERATION_SEQUENCE REWORK_ROUTES n t0 d fuel =
      .ok s) :
    ∀ e ∈ s.events, ∃ op k,
      get_operation_by_id OPERATIONS e.operation_id = .ok op ∧
      e.timestamp_end = e.timestamp_start +
        (max 5 (d.normal k op.avg_duration_minutes op.std_deviation_minutes) +
          op.setup_time_minutes) ∧
      e.cycle_time_minutes =
        round2 (max 5 (d.normal k op.avg_duration_minutes
          op.std_deviation_minutes)) ∧
      e.setup_time_minutes = round2 op.setup_time_minutes ∧
      e.total_time_minutes = e.cycle_time_minutes + e.setup_time_minutes :=
  runSim_inv (DurInv d)
    (fun s c s2 c2 hP hcs => durInv_step s c s2 c2 hP hcs)
    (fun s hP => hP)
    (fun e he => absurd he (by simp [initSim])) h

/-- Witness for C8 at a concrete one-case run. -/
theorem duration_conservation_witness :
    ∃ s, runSim OPERATIONS OPERATION_SEQUENCE REWORK_ROUTES 1 0 calmDraws 9 =
      .ok s ∧
      ∀ e ∈ s.events,
        e.total_time_minutes = e.cycle_time_minutes + e.setup_time_minutes := by
  obtain ⟨s, hs, _⟩ :=
    @calm_runSim REWORK_ROUTES calmDraws calmDraws_ge 9 (by norm_num) 1 0
  refine ⟨s, hs, fun e he => ?_⟩
  obtain ⟨op, k, _, _, _, _, hco⟩ := duration_conservation hs e he
  exact hco

/-- The events of one case in emission order (keyed by the ghost case
number, which determines the formatted case identifier). -/
def caseChain (evs : List Event) (cn : ℤ) : List Event :=
  evs.filter (fun e => e.case_num == cn)

theorem caseChain_append (l1 l2 : List Event) (cn : ℤ) :
    caseChain (l1 ++ l2) cn = caseChain l1 cn ++ caseChain l2 cn := by
  simp [caseChain]

theorem caseChain_singleton (e : Event) (cn : ℤ) :
    caseChain [e] cn = if e.case_num = cn then [e] else [] := by
  by_cases h : e.case_num = cn <;> simp [caseChain, h]

/-- Per-event well-formedness for C3: start at most end, nonnegative
recorded wait. -/
def EventsWF (s : SimSt) : Prop :=
  ∀ e ∈ s.events, e.timestamp_start ≤ e.timestamp_end ∧
    0 ≤ e.wait_time_minutes

/-- Per-case causality chain for C3. -/
def ChainInv (s : SimSt) : Prop :=
  ∀ cn, List.Chain' (fun a b => a.timestamp_end ≤ b.timestamp_start)
    (caseChain s.events cn)

theorem c3_step {d : Draws} {s : SimSt} {c : CaseSt} {s2 : SimSt} {c2 : CaseSt}
    (hWF : EventsWF s) (hCh : ChainInv s)
    (hCp : ∀ e ∈ caseChain s.events c.case_num,
      e.timestamp_end ≤ c.current_time)
    (hcs : caseStep OPERATIONS OPERATION_SEQUENCE REWORK_ROUTES d s c =
      .ok (s2, c2)) :
    EventsWF s2 ∧ ChainInv s2 ∧
      (∀ e ∈ caseChain s2.events c2.case_num,
        e.timestamp_end ≤ c2.current_time) := by
  obtain ⟨op, dd, rds, df2, base, py2, hop, hne, hs2, hc2, hbr⟩ :=
    caseStep_spec hcs
  have hmem := (get_operation_by_id_ok hop).1
  have hev2 : s2.events =
      s.events ++ [stepEvent d s c (stepOpId OPERATION_SEQUENCE c) op dd] := by
    rw [hs2]
  have hct2 : c2.current_time = stepEnd d s c (stepOpId OPERATION_SEQUENCE c) op := by
    rw [hc2]
  have hcn2 : c2.case_num = c.case_num := by
    rw [hc2]
  have hctle : c.current_time ≤ stepStart s c (stepOpId OPERATION_SEQUENCE c) :=
    le_max_left _ _
  have hse : stepStart s c (stepOpId OPERATION_SEQUENCE c) ≤
      stepEnd d s c (stepOpId OPERATION_SEQUENCE c) op :=
    le_add_of_nonneg_right (stepTotal_nonneg hmem)
  refine ⟨?_, ?_, ?_⟩
  · intro e he
    rw [hev2] at he
    rcases List.mem_append.mp he with h1 | h1
    · exact hWF e h1
    · simp only [List.mem_singleton] at h1
      subst h1
      exact ⟨hse, round2_nonneg (le_max_left 0 _)⟩
  · intro cn
    rw [hev2, caseChain_append, caseChain_singleton]
    by_cases hcn : (stepEvent d s c (stepOpId OPERATION_SEQUENCE c) op
        dd).case_num = cn
    · rw [if_pos hcn]
      refine List.Chain'.append (hCh cn) (List.chain'_singleton _) ?_
      intro x hx y hy
      simp only [List.head?_cons, Option.mem_def, Option.some.injEq] at hy
      subst hy
      have hxm := List.mem_of_mem_getLast? hx
      have hxc : x ∈ caseChain s.events c.case_num := by
        have : (stepEvent d s c (stepOpId OPERATION_SEQUENCE c) op
            dd).case_num = c.case_num := rfl
        rw [← this, hcn]
        exact hxm
      show x.timestamp_end ≤ stepStart s c (stepOpId OPERATION_SEQUENCE c)
      exact le_trans (hCp x hxc) hctle
    · rw [if_neg hcn, List.append_nil]
      exact hCh cn
  · intro e he
    rw [hev2, hcn2, caseChain_append, caseChain_singleton] at he
    rw [hct2]
    have hevcn : (stepEvent d s c (stepOpId OPERATION_SEQUENCE c) op
        dd).case_num = c.case_num := rfl
    rw [if_pos hevcn] at he
    rcases List.mem_append.mp he with h1 | h1
    · exact le_trans (hCp e h1) (le_trans hctle hse)
    · simp only [List.mem_singleton] at h1
      subst h1
      exact le_refl _

theorem c3_loop {d : Draws} :
    ∀ (fuel : ℕ) (s : SimSt) (c : CaseSt) (s2 : SimSt) (c2 : CaseSt),
      EventsWF s → ChainInv s →
      (∀ e ∈ caseChain s.events c.case_num,
        e.timestamp_end ≤ c.current_time) →
      simCaseLoop OPERATIONS OPERATION_SEQUENCE REWORK_ROUTES d fuel s c =
        .ok (s2, c2) →
      EventsWF s2 ∧ ChainInv s2 := by
  intro fuel
  induction fuel with
  | zero =>
    intro s c s2 c2 hWF hCh hCp h
    unfold simCaseLoop at h
    split at h
    · exact Except.noConfusion h
    · injection h with h1
      injection h1 with hs hc
      subst hs
      exact ⟨hWF, hCh⟩
  | succ f ih =>
    intro s c s2 c2 hWF hCh hCp h
    unfold simCaseLoop at h
    split at h
    · cases hcs : caseStep OPERATIONS OPERATION_SEQUENCE REWORK_ROUTES d s c with
      | error e => rw [hcs] at h; exact Except.noConfusion h
      | ok pr =>
        rw [hcs] at h
        obtain ⟨sm, cm⟩ := pr
        obtain ⟨hWF2, hCh2, hCp2⟩ := c3_step hWF hCh hCp hcs
        exact ih sm cm s2 c2 hWF2 hCh2 hCp2 h
    · injection h with h1
      injection h1 with hs hc
      subst hs
      exact ⟨hWF, hCh⟩

theorem caseNums_nodup (n : ℤ) : (caseNums n).Nodup := by
  have hinj : Function.Injective (fun (k : ℕ) => ((k : ℤ) + 1)) := by
    intro a b hab
    simp only [add_left_inj] at hab
    exact_mod_cast hab
  exact List.Nodup.map hinj (List.nodup_range _)

theorem c3_cases {d : Draws} {fuel : ℕ} :
    ∀ (ns : List ℤ) (arr : ℚ) (s : SimSt) (s2 : SimSt), ns.Nodup →
      EventsWF s → ChainInv s →
      (∀ m ∈ ns, caseChain s.events m = []) →
      runCases OPERATIONS OPERATION_SEQUENCE REWORK_ROUTES d fuel ns arr s =
        .ok s2 →
      EventsWF s2 ∧ ChainInv s2 := by
  intro ns
  induction ns with
  | nil =>
    intro arr s s2 hnd hWF hCh hFr h
    unfold runCases at h
    injection h with h1
    subst h1
    exact ⟨hWF, hCh⟩
  | cons n rest ih =>
    intro arr s s2 hnd hWF hCh hFr h
    simp only [runCases] at h
    cases hcl : simCaseLoop OPERATIONS OPERATION_SEQUENCE REWORK_ROUTES d fuel
        { s with npIdx := s.npIdx + 1 }
        (initCase n (arr + d.exponential s.npIdx 30)) with
    | error e => rw [hcl] at h; exact Except.noConfusion h
    | ok pr =>
      rw [hcl] at h
      obtain ⟨sm, cm⟩ := pr
      have hCp0 : ∀ e ∈ caseChain
          (SimSt.events { s with npIdx := s.npIdx + 1 })
          (initCase n (arr + d.exponential s.npIdx 30)).case_num,
          e.timestamp_end ≤
            (initCase n (arr + d.exponential s.npIdx 30)).current_time := by
        intro e he
        rw [show (initCase n (arr + d.exponential s.npIdx 30)).case_num = n
          from rfl] at he
        rw [show SimSt.events { s with npIdx := s.npIdx + 1 } = s.events
          from rfl] at he
        rw [hFr n (List.mem_cons_self _ _)] at he
        exact absurd he (List.not_mem_nil e)
      obtain ⟨hWF2, hCh2⟩ := c3_loop fuel { s with npIdx := s.npIdx + 1 }
        (initCase n (arr + d.exponential s.npIdx 30)) sm cm hWF hCh hCp0 hcl
      refine ih _ sm s2 (List.Nodup.of_cons hnd) hWF2 hCh2 ?_ h
      intro m hm
      obtain ⟨_, new, newr, hevm, _, hnew, _⟩ := simCaseLoop_frame fuel hcl
      rw [hevm]
      rw [show SimSt.events { s with npIdx := s.npIdx + 1 } = s.events
        from rfl]
      rw [caseChain_append, hFr m (List.mem_cons_of_mem _ hm)]
      simp only [List.nil_append]
      show List.filter (fun e => e.case_num == m) new = []
      refine List.filter_eq_nil_iff.mpr ?_
      intro e hme
      have hc := hnew e hme
      rw [show (initCase n (arr + d.exponential s.npIdx 30)).case_num = n
        from rfl] at hc
      simp only [beq_iff_eq, hc]
      intro hcontra
      rw [← hcontra] at hm
      exact (List.nodup_cons.mp hnd).1 hm

/-- C3: every event has start ≤ end and nonnegative wait, and each case's
consecutive events in case-local emission order satisfy
end-of-previous ≤ start-of-next. -/
theorem causality_of_events {n : ℤ} {t0 : ℚ} {d : Draws} {fuel : ℕ}
    {s : SimSt}
    (h : runSim OPERATIONS OPERATION_SEQUENCE REWORK_ROUTES n t0 d fuel =
      .ok s) :
    (∀ e ∈ s.events, e.timestamp_start ≤ e.timestamp_end ∧
      0 ≤ e.wait_time_minutes) ∧
    ∀ cn, List.Chain' (fun a b => a.timestamp_end ≤ b.timestamp_start)
      (caseChain s.events cn) := by
  refine c3_cases (caseNums n) t0 (initSim OPERATIONS t0) s (caseNums_nodup n)
    ?_ ?_ ?_ h
  · intro e he
    exact absurd he (by simp [initSim])
  · intro cn
    show List.Chain' _ (caseChain [] cn)
    simp [caseChain]
  · intro m hm
    rfl

/-- Witness for C3 at a concrete one-case run. -/
theorem causality_of_events_witness :
    ∃ s, runSim OPERATIONS OPERATION_SEQUENCE REWORK_ROUTES 1 0 calmDraws 6 =
      .ok s ∧
      ∀ e ∈ s.events, e.timestamp_start ≤ e.timestamp_end ∧
        0 ≤ e.wait_time_minutes := by
  obtain ⟨s, hs, _⟩ :=
    @calm_runSim REWORK_ROUTES calmDraws calmDraws_ge 6 (by norm_num) 1 0
  exact ⟨s, hs, (causality_of_events hs).1⟩

/-- C1: the whole event-log generation is a pure function of the seed: for
whatever (deterministic) assignment of draw streams the seeded generators
realize, two runs with the same seed, case count, and epoch produce the
identical Event Log.  This captures that the source seeds both of its
generators from the single `seed` parameter at function entry and uses no
other randomness or ambient state. -/
theorem determinism_fixed_seed (mk : ℤ → Draws) (seed1 seed2 : ℤ) (n : ℤ)
    (t0 : ℚ) (fuel : ℕ) (h : seed1 = seed2) :
    generate_event_log OPERATIONS OPERATION_SEQUENCE REWORK_ROUTES n t0
      (mk seed1) fuel =
    generate_event_log OPERATIONS OPERATION_SEQUENCE REWORK_ROUTES n t0
      (mk seed2) fuel := by
  rw [h]

/-- Witness for C1 at seed 42 with 500 cases. -/
theorem determinism_fixed_seed_witness :
    (42 : ℤ) = 42 ∧
    generate_event_log OPERATIONS OPERATION_SEQUENCE REWORK_ROUTES 500 0
      ((fun _ => calmDraws) (42 : ℤ)) 6 =
    generate_event_log OPERATIONS OPERATION_SEQUENCE REWORK_ROUTES 500 0
      ((fun _ => calmDraws) (42 : ℤ)) 6 :=
  ⟨rfl, determinism_fixed_seed (fun _ => calmDraws) 42 42 500 0 6 rfl⟩

/-- C6: a zero or negative case count yields an error (the empty frame has
no columns, so the sort raises `KeyError`), no Event Log is returned, and no
simulation work at all is done: the final simulation state is the initial
one, with no events, no redirects, and no draws consumed. -/
theorem nonpositive_case_count_rejected {n : ℤ} (hn : n ≤ 0) (t0 : ℚ)
    (d : Draws) (fuel : ℕ) :
    generate_event_log OPERATIONS OPERATION_SEQUENCE REWORK_ROUTES n t0 d fuel
      = .error "KeyError: timestamp_start" ∧
    runSim OPERATIONS OPERATION_SEQUENCE REWORK_ROUTES n t0 d fuel =
      .ok (initSim OPERATIONS t0) := by
  have hcn : caseNums n = [] := by
    unfold caseNums
    rw [Int.toNat_of_nonpos hn]
    rfl
  have hrs : runSim OPERATIONS OPERATION_SEQUENCE REWORK_ROUTES n t0 d fuel =
      .ok (initSim OPERATIONS t0) := by
    unfold runSim
    rw [hcn]
    rfl
  refine ⟨?_, hrs⟩
  unfold generate_event_log
  rw [hrs]
  rfl

/-- Witness for C6 at case count -3. -/
theorem nonpositive_case_count_rejected_witness :
    generate_event_log OPERATIONS OPERATION_SEQUENCE REWORK_ROUTES (-3) 0
      calmDraws 6 = .error "KeyError: timestamp_start" :=
  (nonpositive_case_count_rejected (by norm_num) 0 calmDraws 6).1

/-- Counterexample to C5 as stated: a configuration whose rework map routes
"OP2" to the unknown stage "OPX" (unknown to both the catalog and the
sequence), yet a one-case run with defect-free draws succeeds and returns a
full Event Log — no configuration error is raised at all, let alone before
simulation. -/
theorem config_validation_claim_cex :
    (∀ op ∈ OPERATIONS, op.id ≠ "OPX") ∧ "OPX" ∉ OPERATION_SEQUENCE ∧
    ∃ log, generate_event_log OPERATIONS OPERATION_SEQUENCE [("OP2", "OPX")]
      1 0 calmDraws 6 = .ok log := by
  refine ⟨by decide, by decide, ?_⟩
  obtain ⟨s, hs, hlen⟩ :=
    @calm_runSim [("OP2", "OPX")] calmDraws calmDraws_ge 6 (le_refl 6) 1 0
  have hne : s.events ≠ [] := by
    intro hE
    rw [hE] at hlen
    simp [caseNums] at hlen
  have hemp : s.events.isEmpty = false := by
    cases hcase : s.events with
    | nil => exact absurd hcase hne
    | cons a l => rfl
  refine ⟨sortLog s.events, ?_⟩
  unfold generate_event_log
  rw [hs]
  show (if s.events.isEmpty = true then
      Except.error "KeyError: timestamp_start"
    else Except.ok (sortLog s.events)) = Except.ok (sortLog s.events)
  simp [hemp]

/-- C5 amended: resolution of an unknown stage identifier does raise the
configuration error and no Event Log is produced — but only lazily, at the
moment the traversal actually reaches the identifier.  Representative
statement: whenever the Standard Sequence starts with an identifier unknown
to the catalog, every run with a positive case count fails with the
stage-resolution error of that identifier (and nothing is returned). -/
theorem unknown_sequence_stage_errors (ops : List Operation) (x : String)
    (rest : List String) (routes : List (String × String))
    (hx : ∀ op ∈ ops, op.id ≠ x) {n : ℤ} (hn : 1 ≤ n) (t0 : ℚ) (d : Draws)
    {fuel : ℕ} (hf : 1 ≤ fuel) :
    generate_event_log ops (x :: rest) routes n t0 d fuel =
      .error ("Operation not found: " ++ x) := by
  obtain ⟨tail, htail⟩ : ∃ tail, caseNums n = (1 : ℤ) :: tail := by
    obtain ⟨k, hk⟩ : ∃ k, n.toNat = k + 1 := ⟨n.toNat - 1, by omega⟩
    refine ⟨((List.range k).map Nat.succ).map (fun (j : ℕ) => ((j : ℤ) + 1)), ?_⟩
    unfold caseNums
    rw [hk, List.range_succ_eq_map]
    simp
  have hgo : get_operation_by_id ops (seqGet (x :: rest) 0) =
      .error ("Operation not found: " ++ x) := by
    have hseq : seqGet (x :: rest) 0 = x := rfl
    rw [hseq]
    unfold get_operation_by_id
    rw [List.find?_eq_none.mpr (fun op hop => by simp [hx op hop])]
  obtain ⟨f, rfl⟩ : ∃ f, fuel = f + 1 := ⟨fuel - 1, by omega⟩
  have hcond : (0 : ℤ) < ((x :: rest).length : ℤ) := by
    simp only [List.length_cons]
    exact_mod_cast Nat.succ_pos _
  have hstep : ∀ (s : SimSt) (arr : ℚ),
      caseStep ops (x :: rest) routes d s (initCase 1 arr) =
        .error ("Operation not found: " ++ x) := by
    intro s arr
    simp only [caseStep]
    rw [show seqGet (x :: rest) (initCase 1 arr).opIdx = seqGet (x :: rest) 0
      from rfl, hgo]
  have hloop : ∀ (s : SimSt) (arr : ℚ),
      simCaseLoop ops (x :: rest) routes d (f + 1) s (initCase 1 arr) =
        .error ("Operation not found: " ++ x) := by
    intro s arr
    unfold simCaseLoop
    rw [if_pos (show (initCase 1 arr).opIdx < ((x :: rest).length : ℤ) from
      hcond), hstep]
  have hrs : runSim ops (x :: rest) routes n t0 d (f + 1) =
      .error ("Operation not found: " ++ x) := by
    unfold runSim
    rw [htail]
    simp only [runCases]
    rw [hloop]
  unfold generate_event_log
  rw [hrs]

/-- Witness for the amended C5: the default catalog with the unknown stage
"OPX" put at the head of the sequence fails exactly with its resolution
error. -/
theorem unknown_sequence_stage_errors_witness :
    generate_event_log OPERATIONS ("OPX" :: OPERATION_SEQUENCE) REWORK_ROUTES
      1 0 calmDraws 1 = .error ("Operation not found: " ++ "OPX") :=
  unknown_sequence_stage_errors OPERATIONS "OPX" OPERATION_SEQUENCE
    REWORK_ROUTES (by decide) (le_refl 1) 0 calmDraws (le_refl 1)

/-! Lemmas for the Lead-Time Aggregator (C9). -/

theorem foldl_min_all {xs : List ℚ} :
    ∀ {a : ℚ}, (∀ y ∈ xs, a ≤ y) → xs.foldl min a = a := by
  induction xs with
  | nil => intro a _; rfl
  | cons x xs ih =>
    intro a h
    simp only [List.foldl_cons]
    rw [min_eq_left (h x (List.mem_cons_self _ _))]
    exact ih (fun y hy => h y (List.mem_cons_of_mem _ hy))

theorem foldl_max_all {M : ℚ} : ∀ {xs : List ℚ} {a : ℚ},
    (∀ y ∈ xs, y ≤ M) → a ≤ M → (a = M ∨ M ∈ xs) → xs.foldl max a = M := by
  intro xs
  induction xs with
  | nil =>
    intro a _ _ hmem
    rcases hmem with h | h
    · exact h
    · exact absurd h (List.not_mem_nil M)
  | cons x xs ih =>
    intro a hM haM hmem
    simp only [List.foldl_cons]
    have hxM : x ≤ M := hM x (List.mem_cons_self _ _)
    have hM2 : ∀ y ∈ xs, y ≤ M := fun y hy => hM y (List.mem_cons_of_mem _ hy)
    rcases hmem with h | h
    · subst h
      exact ih hM2 (max_le (le_refl a) hxM) (Or.inl (max_eq_left hxM))
    · rcases List.mem_cons.mp h with h1 | h1
      · subst h1
        exact ih hM2 (max_le haM hxM) (Or.inl (max_eq_right haM))
      · exact ih hM2 (max_le haM hxM) (Or.inr h1)

theorem head_start_le :
    ∀ (e : Event) (rest : List Event),
      List.Chain' (fun a b => a.timestamp_end ≤ b.timestamp_start) (e :: rest) →
      (∀ x ∈ e :: rest, x.timestamp_start ≤ x.timestamp_end) →
      ∀ y ∈ rest, e.timestamp_start ≤ y.timestamp_start := by
  intro e rest
  induction rest generalizing e with
  | nil => intro _ _ y hy; exact absurd hy (List.not_mem_nil y)
  | cons b tl ih =>
    intro hch hwf y hy
    have h1 : e.timestamp_end ≤ b.timestamp_start :=
      (List.chain'_cons.mp hch).1
    have h2 : e.timestamp_start ≤ b.timestamp_start :=
      le_trans (hwf e (List.mem_cons_self _ _)) h1
    rcases List.mem_cons.mp hy with h3 | h3
    · exact h3 ▸ h2
    · refine le_trans h2 (ih b (List.chain'_cons.mp hch).2
        (fun x hx => hwf x (List.mem_cons_of_mem _ hx)) y h3)

theorem end_le_last :
    ∀ (evs : List Event) (h : evs ≠ []),
      List.Chain' (fun a b => a.timestamp_end ≤ b.timestamp_start) evs →
      (∀ x ∈ evs, x.timestamp_start ≤ x.timestamp_end) →
      ∀ y ∈ evs, y.timestamp_end ≤ (evs.getLast h).timestamp_end := by
  intro evs
  induction evs with
  | nil => intro h; exact absurd rfl h
  | cons e rest ih =>
    intro h hch hwf y hy
    cases rest with
    | nil =>
      simp only [List.mem_singleton] at hy
      subst hy
      exact le_refl _
    | cons b tl =>
      rw [List.getLast_cons (by simp)]
      rcases List.mem_cons.mp hy with h1 | h1
      · subst h1
        have h2 : y.timestamp_end ≤ b.timestamp_start :=
          (List.chain'_cons.mp hch).1
        have h3 : b.timestamp_end ≤ ((b :: tl).getLast (by simp)).timestamp_end :=
          ih (by simp) (List.chain'_cons.mp hch).2
            (fun x hx => hwf x (List.mem_cons_of_mem _ hx)) b
            (List.mem_cons_self _ _)
        exact le_trans h2 (le_trans (hwf b (by simp)) h3)
      · exact ih (by simp) (List.chain'_cons.mp hch).2
          (fun x hx => hwf x (List.mem_cons_of_mem _ hx)) y h1

theorem listMinQ_head_start (evs : List Event) (h : evs ≠ [])
    (hch : List.Chain' (fun a b => a.timestamp_end ≤ b.timestamp_start) evs)
    (hwf : ∀ x ∈ evs, x.timestamp_start ≤ x.timestamp_end) :
    listMinQ (evs.map (fun e => e.timestamp_start)) =
      (evs.head h).timestamp_start := by
  cases evs with
  | nil => exact absurd rfl h
  | cons e rest =>
    simp only [List.map_cons, listMinQ, List.head_cons]
    refine foldl_min_all ?_
    intro y hy
    obtain ⟨z, hz, hzy⟩ := List.mem_map.mp hy
    exact hzy ▸ head_start_le e rest hch hwf z hz

theorem listMaxQ_getLast_end (evs : List Event) (h : evs ≠ [])
    (hch : List.Chain' (fun a b => a.timestamp_end ≤ b.timestamp_start) evs)
    (hwf : ∀ x ∈ evs, x.timestamp_start ≤ x.timestamp_end) :
    listMaxQ (evs.map (fun e => e.timestamp_end)) =
      (evs.getLast h).timestamp_end := by
  have hle := end_le_last evs h hch hwf
  cases evs with
  | nil => exact absurd rfl h
  | cons e rest =>
    simp only [List.map_cons, listMaxQ]
    refine foldl_max_all ?_ ?_ ?_
    · intro y hy
      obtain ⟨z, hz, hzy⟩ := List.mem_map.mp hy
      exact hzy ▸ hle z (List.mem_cons_of_mem _ hz)
    · exact hle e (List.mem_cons_self _ _)
    · cases rest with
      | nil => exact Or.inl rfl
      | cons b tl =>
        rw [List.getLast_cons (by simp)]
        exact Or.inr (List.mem_map_of_mem _
          (@List.getLast_mem _ (b :: tl) (by simp)))

/-- C9: for every case with at least one event, the aggregator's row (a pure
reduction of the log grouped by case identifier) satisfies the contract:
lead time = last event's end − first event's start (given the case's events
in log order are causally chained), total wait/cycle are the column sums,
total stage visits is the event count, and total rework visits counts the
rework-flagged events; the row is a member of the aggregator's output
table. -/
theorem lead_time_aggregation (log : List Event) (cid : String)
    (hne : caseEvents log cid ≠ [])
    (hch : List.Chain' (fun a b => a.timestamp_end ≤ b.timestamp_start)
      (caseEvents log cid))
    (hwf : ∀ e ∈ caseEvents log cid, e.timestamp_start ≤ e.timestamp_end) :
    caseSummary log cid ∈ calculate_case_lead_times log ∧
    (caseSummary log cid).lead_time_minutes =
      ((caseEvents log cid).getLast hne).timestamp_end -
      ((caseEvents log cid).head hne).timestamp_start ∧
    (caseSummary log cid).total_wait_time =
      ((caseEvents log cid).map (fun e => e.wait_time_minutes)).sum ∧
    (caseSummary log cid).total_cycle_time =
      ((caseEvents log cid).map (fun e => e.cycle_time_minutes)).sum ∧
    (caseSummary log cid).total_operations = (caseEvents log cid).length ∧
    (caseSummary log cid).total_reworks =
      ((caseEvents log cid).filter (fun e => e.is_rework)).length := by
  have hmin := listMinQ_head_start (caseEvents log cid) hne hch hwf
  have hmax := listMaxQ_getLast_end (caseEvents log cid) hne hch hwf
  refine ⟨?_, ?_, rfl, rfl, rfl, rfl⟩
  · unfold calculate_case_lead_times
    refine List.mem_map_of_mem _ ?_
    rw [List.Perm.mem_iff (List.perm_insertionSort _ _), List.mem_dedup]
    obtain ⟨e, he⟩ := List.exists_mem_of_ne_nil _ hne
    have hem : e ∈ log ∧ e.case_id == cid := by
      have := List.mem_filter.mp he
      exact ⟨this.1, this.2⟩
    refine List.mem_map.mpr ⟨e, hem.1, ?_⟩
    have := hem.2
    simpa using this
  · show listMaxQ ((caseEvents log cid).map (fun e => e.timestamp_end)) -
      listMinQ ((caseEvents log cid).map (fun e => e.timestamp_start)) = _
    rw [hmin, hmax]

/-- A concrete event for the aggregator witness. -/
def sampleEvent : Event :=
  { case_num := 1, case_id := "CASE-0001",
    activity := "Raw Material Preparation",
    activity_fr := "Préparation Matière Première", operation_id := "OP1",
    timestamp_start := 0, timestamp_end := 20, resource := "OP1_WS1",
    ws_index := 0, is_rework := false, rework_count := 1,
    wait_time_minutes := 0, cycle_time_minutes := 15,
    setup_time_minutes := 5, total_time_minutes := 20,
    defect_detected := false }

/-- Witness for C9 on a concrete one-event log. -/
theorem lead_time_aggregation_witness :
    ∃ h : caseEvents [sampleEvent] "CASE-0001" ≠ [],
      caseSummary [sampleEvent] "CASE-0001" ∈
        calculate_case_lead_times [sampleEvent] ∧
      (caseSummary [sampleEvent] "CASE-0001").lead_time_minutes =
        ((caseEvents [sampleEvent] "CASE-0001").getLast h).timestamp_end -
        ((caseEvents [sampleEvent] "CASE-0001").head h).timestamp_start := by
  have hEq : caseEvents [sampleEvent] "CASE-0001" = [sampleEvent] := by
    simp [caseEvents, sampleEvent]
  have hne : caseEvents [sampleEvent] "CASE-0001" ≠ [] := by
    rw [hEq]
    simp
  have hch : List.Chain' (fun a b => a.timestamp_end ≤ b.timestamp_start)
      (caseEvents [sampleEvent] "CASE-0001") := by
    rw [hEq]
    exact List.chain'_singleton _
  have hwf : ∀ e ∈ caseEvents [sampleEvent] "CASE-0001",
      e.timestamp_start ≤ e.timestamp_end := by
    rw [hEq]
    intro e he
    simp only [List.mem_singleton] at he
    subst he
    show (0 : ℚ) ≤ 20
    norm_num
  obtain ⟨h1, h2, _⟩ :=
    lead_time_aggregation [sampleEvent] "CASE-0001" hne hch hwf
  exact ⟨hne, h1, h2⟩

/-- The adversarial draw stream: every draw zero.  Zero is a legal value of
`random.random()`, and an all-zero stream makes every defect draw succeed
(0 < rate for every non-inspection stage on the path) and every detection
draw succeed (0 < 0.8). -/
def zeroDraws : Draws :=
  { exponential := fun _ _ => 0, normal := fun _ _ _ => 0,
    random := fun _ => 0 }

/-- Control projection of a case: only the sequence cursor and the defect
dict feed back into the traversal's control flow under a constant draw
stream. -/
def ctrlOf (c : CaseSt) : ℤ × List (String × Bool) := (c.opIdx, c.defects)

/-- The (eventually periodic) orbit of control states reached by a fresh
case under the all-zero stream: OP1..OP4 record defects, OP5 detects the
OP1 defect and redirects to OP1, which records it again, forever. -/
def zeroOrbit : List (ℤ × List (String × Bool)) := [
  (0, []),
  (1, [("OP1", true)]),
  (2, [("OP1", true), ("OP2", true)]),
  (3, [("OP1", true), ("OP2", true), ("OP3", true)]),
  (4, [("OP1", true), ("OP2", true), ("OP3", true), ("OP4", true)]),
  (0, [("OP1", false), ("OP2", true), ("OP3", true), ("OP4", true)]),
  (1, [("OP1", true), ("OP2", true), ("OP3", true), ("OP4", true)]),
  (2, [("OP1", true), ("OP2", true), ("OP3", true), ("OP4", true)]),
  (3, [("OP1", true), ("OP2", true), ("OP3", true), ("OP4", true)])]

theorem get_op1 : get_operation_by_id OPERATIONS "OP1" = .ok
    { id := "OP1", name := "Raw Material Preparation",
      name_fr := "Préparation Matière Première",
      avg_duration_minutes := 15.0, std_deviation_minutes := 3.0,
      setup_time_minutes := 5.0, defect_rate := 0.02,
      workstation_count := 2 } := rfl

theorem get_op2 : get_operation_by_id OPERATIONS "OP2" = .ok
    { id := "OP2", name := "CNC Machining", name_fr := "Usinage CNC",
      avg_duration_minutes := 45.0, std_deviation_minutes := 8.0,
      setup_time_minutes := 10.0, defect_rate := 0.05,
      workstation_count := 3 } := rfl

theorem get_op3 : get_operation_by_id OPERATIONS "OP3" = .ok
    { id := "OP3", name := "Heat Treatment", name_fr := "Traitement Thermique",
      avg_duration_minutes := 90.0, std_deviation_minutes := 10.0,
      setup_time_minutes := 15.0, defect_rate := 0.03,
      workstation_count := 1 } := rfl

theorem get_op4 : get_operation_by_id OPERATIONS "OP4" = .ok
    { id := "OP4", name := "Surface Finishing",
      name_fr := "Finition de Surface",
      avg_duration_minutes := 30.0, std_deviation_minutes := 5.0,
      setup_time_minutes := 8.0, defect_rate := 0.04,
      workstation_count := 2 } := rfl

theorem get_op5 : get_operation_by_id OPERATIONS "OP5" = .ok
    { id := "OP5", name := "Quality Control", name_fr := "Contrôle Qualité",
      avg_duration_minutes := 20.0, std_deviation_minutes := 4.0,
      setup_time_minutes := 3.0, defect_rate := 0.0,
      workstation_count := 2 } := rfl

theorem ws_isEmpty_false {s : SimSt} (hws : WsInv s) (k : String)
    (hk : k ∈ OPERATION_SEQUENCE) : (s.ws k).isEmpty = false := by
  cases hcase : s.ws k with
  | nil => exact absurd hcase (hws k hk)
  | cons a l => rfl

theorem wsInv_update {s : SimSt} (hws : WsInv s) (opid : String) (i : ℕ)
    (v : ℚ) (A B : ℕ) (E : List Event) (R : List Redirect) :
    WsInv { ws := fun k => if k = opid then (s.ws opid).set i v else s.ws k,
            npIdx := A, pyIdx := B, events := E, redirects := R } := by
  intro kk hkk
  simp only
  by_cases hk : kk = opid
  · rw [if_pos hk]
    intro hE
    have := congrArg List.length hE
    simp only [List.length_set, List.length_nil] at this
    exact (hws opid (hk ▸ hkk)) (List.length_eq_zero.mp this)
  · rw [if_neg hk]
    exact hws kk hkk

/-- One step of the all-zero run stays on the orbit, always succeeding. -/
theorem zero_step_orbit (s : SimSt) (c : CaseSt) (hws : WsInv s)
    (hc : ctrlOf c ∈ zeroOrbit) :
    ∃ s2 c2, caseStep OPERATIONS OPERATION_SEQUENCE REWORK_ROUTES zeroDraws
        s c = .ok (s2, c2) ∧ ctrlOf c2 ∈ zeroOrbit ∧ WsInv s2 := by
  simp only [ctrlOf, zeroOrbit, List.mem_cons, List.not_mem_nil, or_false,
    Prod.mk.injEq] at hc
  rcases hc with ⟨hIdx, hDef⟩ | ⟨hIdx, hDef⟩ | ⟨hIdx, hDef⟩ | ⟨hIdx, hDef⟩ |
    ⟨hIdx, hDef⟩ | ⟨hIdx, hDef⟩ | ⟨hIdx, hDef⟩ | ⟨hIdx, hDef⟩ | ⟨hIdx, hDef⟩
  · have hseq : seqGet OPERATION_SEQUENCE c.opIdx = "OP1" := by
      rw [hIdx]
      rfl
    simp only [caseStep, hseq, get_op1,
      ws_isEmpty_false hws "OP1" (by decide), Bool.false_eq_true, if_false]
    norm_num [zeroDraws]
    refine ⟨_, _, rfl, ?_, ?_⟩
    · simp only [ctrlOf]
      rw [hIdx, hDef]
      decide
    · exact wsInv_update hws _ _ _ _ _ _ _
  · have hseq : seqGet OPERATION_SEQUENCE c.opIdx = "OP2" := by
      rw [hIdx]
      rfl
    simp only [caseStep, hseq, get_op2,
      ws_isEmpty_false hws "OP2" (by decide), Bool.false_eq_true, if_false]
    norm_num [zeroDraws]
    refine ⟨_, _, rfl, ?_, ?_⟩
    · simp only [ctrlOf]
      rw [hIdx, hDef]
      decide
    · exact wsInv_update hws _ _ _ _ _ _ _
  · have hseq : seqGet OPERATION_SEQUENCE c.opIdx = "OP3" := by
      rw [hIdx]
      rfl
    simp only [caseStep, hseq, get_op3,
      ws_isEmpty_false hws "OP3" (by decide), Bool.false_eq_true, if_false]
    norm_num [zeroDraws]
    refine ⟨_, _, rfl, ?_, ?_⟩
    · simp only [ctrlOf]
      rw [hIdx, hDef]
      decide
    · exact wsInv_update hws _ _ _ _ _ _ _
  · have hseq : seqGet OPERATION_SEQUENCE c.opIdx = "OP4" := by
      rw [hIdx]
      rfl
    simp only [caseStep, hseq, get_op4,
      ws_isEmpty_false hws "OP4" (by decide), Bool.false_eq_true, if_false]
    norm_num [zeroDraws]
    refine ⟨_, _, rfl, ?_, ?_⟩
    · simp only [ctrlOf]
      rw [hIdx, hDef]
      decide
    · exact wsInv_update hws _ _ _ _ _ _ _
  · have hseq : seqGet OPERATION_SEQUENCE c.opIdx = "OP5" := by
      rw [hIdx]
      rfl
    have hscan : qcScan zeroDraws.random s.pyIdx c.defects =
        (s.pyIdx + 1, some "OP1") := by
      rw [hDef]
      unfold qcScan
      rw [if_pos rfl, if_pos (show zeroDraws.random s.pyIdx < (0.8 : ℚ) by
        norm_num [zeroDraws])]
    have hlk : lookupD REWORK_ROUTES "OP1" "OP1" = "OP1" := rfl
    have hgi : get_operation_index OPERATION_SEQUENCE "OP1" = .ok 0 := rfl
    simp only [caseStep, hseq, get_op5,
      ws_isEmpty_false hws "OP5" (by decide), Bool.false_eq_true, if_false,
      hscan, hlk, hgi, if_pos rfl]
    refine ⟨_, _, rfl, ?_, ?_⟩
    · simp only [ctrlOf]
      rw [hDef]
      decide
    · exact wsInv_update hws _ _ _ _ _ _ _
  · have hseq : seqGet OPERATION_SEQUENCE c.opIdx = "OP1" := by
      rw [hIdx]
      rfl
    simp only [caseStep, hseq, get_op1,
      ws_isEmpty_false hws "OP1" (by decide), Bool.false_eq_true, if_false]
    norm_num [zeroDraws]
    refine ⟨_, _, rfl, ?_, ?_⟩
    · simp only [ctrlOf]
      rw [hIdx, hDef]
      decide
    · exact wsInv_update hws _ _ _ _ _ _ _
  · have hseq : seqGet OPERATION_SEQUENCE c.opIdx = "OP2" := by
      rw [hIdx]
      rfl
    simp only [caseStep, hseq, get_op2,
      ws_isEmpty_false hws "OP2" (by decide), Bool.false_eq_true, if_false]
    norm_num [zeroDraws]
    refine ⟨_, _, rfl, ?_, ?_⟩
    · simp only [ctrlOf]
      rw [hIdx, hDef]
      decide
    · exact wsInv_update hws _ _ _ _ _ _ _
  · have hseq : seqGet OPERATION_SEQUENCE c.opIdx = "OP3" := by
      rw [hIdx]
      rfl
    simp only [caseStep, hseq, get_op3,
      ws_isEmpty_false hws "OP3" (by decide), Bool.false_eq_true, if_false]
    norm_num [zeroDraws]
    refine ⟨_, _, rfl, ?_, ?_⟩
    · simp only [ctrlOf]
      rw [hIdx, hDef]
      decide
    · exact wsInv_update hws _ _ _ _ _ _ _
  · have hseq : seqGet OPERATION_SEQUENCE c.opIdx = "OP4" := by
      rw [hIdx]
      rfl
    simp only [caseStep, hseq, get_op4,
      ws_isEmpty_false hws "OP4" (by decide), Bool.false_eq_true, if_false]
    norm_num [zeroDraws]
    refine ⟨_, _, rfl, ?_, ?_⟩
    · simp only [ctrlOf]
      rw [hIdx, hDef]
      decide
    · exact wsInv_update hws _ _ _ _ _ _ _

theorem orbit_opIdx_lt {c : CaseSt} (hc : ctrlOf c ∈ zeroOrbit) :
    c.opIdx < (OPERATION_SEQUENCE.length : ℤ) := by
  simp only [ctrlOf, zeroOrbit, List.mem_cons, List.not_mem_nil, or_false,
    Prod.mk.injEq] at hc
  rcases hc with ⟨hIdx, _⟩ | ⟨hIdx, _⟩ | ⟨hIdx, _⟩ | ⟨hIdx, _⟩ |
    ⟨hIdx, _⟩ | ⟨hIdx, _⟩ | ⟨hIdx, _⟩ | ⟨hIdx, _⟩ | ⟨hIdx, _⟩ <;>
    rw [hIdx] <;> decide

/-- Under the all-zero stream, no amount of fuel completes the traversal
from any orbit state: the loop always runs out of fuel. -/
theorem zero_loop_never_ends :
    ∀ (fuel : ℕ) (s : SimSt) (c : CaseSt), WsInv s → ctrlOf c ∈ zeroOrbit →
      simCaseLoop OPERATIONS OPERATION_SEQUENCE REWORK_ROUTES zeroDraws fuel
        s c = .error "fuel exhausted" := by
  intro fuel
  induction fuel with
  | zero =>
    intro s c hws hc
    unfold simCaseLoop
    rw [if_pos (orbit_opIdx_lt hc)]
  | succ f ih =>
    intro s c hws hc
    obtain ⟨s2, c2, hstep, hc2, hws2⟩ := zero_step_orbit s c hws hc
    unfold simCaseLoop
    rw [if_pos (orbit_opIdx_lt hc), hstep]
    exact ih s2 c2 hws2 hc2

/-- Counterexample to C4 as stated: under the all-zero draw stream (a legal
output sequence of `random.random()`), the first case's stage-traversal
loop never reaches the end of the Standard Sequence — every defect draw
records a defect and every inspection detects one and redirects, so no fuel
bound suffices.  Termination therefore does not hold for every case of
every run. -/
theorem traversal_termination_claim_cex :
    ¬ ∃ fuel s2 c2,
      simCaseLoop OPERATIONS OPERATION_SEQUENCE REWORK_ROUTES zeroDraws fuel
        (initSim OPERATIONS 0) (initCase 1 0) = .ok (s2, c2) := by
  rintro ⟨fuel, s2, c2, h⟩
  rw [zero_loop_never_ends fuel (initSim OPERATIONS 0) (initCase 1 0)
    (initSim_wsInv 0) (by decide)] at h
  exact Except.noConfusion h

/-- C4 amended: a case's traversal does terminate whenever the draws stop
triggering defects and detections — with every uniform draw at or above the
0.8 detection threshold no defect is recorded and no redirect fires, so a
fresh case exits the sequence after exactly one pass (6 steps), its cursor
landing past the last sequence index.  (Termination for every stream is
refuted by the all-zero stream.) -/
theorem traversal_terminates_without_rework {d : Draws}
    (hd : ∀ i, (0.8 : ℚ) ≤ d.random i) (s : SimSt) (hws : WsInv s)
    (cn : ℤ) (arr : ℚ) :
    ∃ fuel s2 c2,
      simCaseLoop OPERATIONS OPERATION_SEQUENCE REWORK_ROUTES d fuel s
        (initCase cn arr) = .ok (s2, c2) ∧
      c2.opIdx = (OPERATION_SEQUENCE.length : ℤ) := by
  obtain ⟨s2, c2, h, hidx, _, _⟩ := noDefect_simCaseLoop hd 6 6 s
    (initCase cn arr) rfl (by simp [initCase]) (by simp [initCase])
    (le_refl 6) hws
  refine ⟨6, s2, c2, h, ?_⟩
  rw [hidx]
  decide

/-- Witness for the amended C4 at concrete inputs. -/
theorem traversal_terminates_without_rework_witness :
    ∃ fuel s2 c2,
      simCaseLoop OPERATIONS OPERATION_SEQUENCE REWORK_ROUTES calmDraws fuel
        (initSim OPERATIONS 0) (initCase 1 0) = .ok (s2, c2) ∧
      c2.opIdx = (OPERATION_SEQUENCE.length : ℤ) :=
  traversal_terminates_without_rework calmDraws_ge (initSim OPERATIONS 0)
    (initSim_wsInv 0) 1 0

/-! Machinery for C7: per-case visit counts and redirect counts. -/

/-- Number of visits of case `cn` to the stage at sequence index `j`. -/
def vcountL (evs : List Event) (cn : ℤ) (j : ℕ) : ℕ :=
  (evs.filter (fun e =>
    e.case_num == cn && e.operation_id == OPERATION_SEQUENCE.getD j "")).length

/-- Number of redirects of case `cn` whose re-entry index is at most `j`. -/
def rcountL (rds : List Redirect) (cn : ℤ) (j : ℕ) : ℕ :=
  (rds.filter (fun r => r.case_num == cn && decide (r.target ≤ j))).length

theorem vcountL_append (l1 l2 : List Event) (cn : ℤ) (j : ℕ) :
    vcountL (l1 ++ l2) cn j = vcountL l1 cn j + vcountL l2 cn j := by
  simp [vcountL]

theorem rcountL_append (l1 l2 : List Redirect) (cn : ℤ) (j : ℕ) :
    rcountL (l1 ++ l2) cn j = rcountL l1 cn j + rcountL l2 cn j := by
  simp [rcountL]

theorem vcountL_single {e : Event} {cn : ℤ} (j : ℕ) (hc : e.case_num = cn) :
    vcountL [e] cn j =
      if (e.operation_id == OPERATION_SEQUENCE.getD j "") = true then 1
      else 0 := by
  unfold vcountL
  rw [List.filter_singleton]
  have hpe : (e.case_num == cn &&
      (e.operation_id == OPERATION_SEQUENCE.getD j "")) =
      (e.operation_id == OPERATION_SEQUENCE.getD j "") := by
    simp [hc]
  rw [hpe]
  cases hb : (e.operation_id == OPERATION_SEQUENCE.getD j "") <;> simp

theorem rcountL_single {r : Redirect} {cn : ℤ} (j : ℕ)
    (hc : r.case_num = cn) :
    rcountL [r] cn j = if r.target ≤ j then 1 else 0 := by
  unfold rcountL
  rw [List.filter_singleton]
  have hpe : (r.case_num == cn && decide (r.target ≤ j)) =
      decide (r.target ≤ j) := by
    simp [hc]
  rw [hpe]
  by_cases hb : r.target ≤ j <;> simp [hb]

theorem vcountL_zero_of_fresh {evs : List Event} {cn : ℤ}
    (h : evs.filter (fun e => e.case_num == cn) = []) (j : ℕ) :
    vcountL evs cn j = 0 := by
  refine List.length_eq_zero.mpr (List.filter_eq_nil_iff.mpr ?_)
  intro e he
  have h2 := List.filter_eq_nil_iff.mp h e he
  simp only [Bool.and_eq_true, not_and]
  intro hc
  exact absurd hc h2

theorem rcountL_zero_of_fresh {rds : List Redirect} {cn : ℤ}
    (h : rds.filter (fun r => r.case_num == cn) = []) (j : ℕ) :
    rcountL rds cn j = 0 := by
  refine List.length_eq_zero.mpr (List.filter_eq_nil_iff.mpr ?_)
  intro r hr
  have h2 := List.filter_eq_nil_iff.mp h r hr
  simp only [Bool.and_eq_true, not_and]
  intro hc
  exact absurd hc h2

/-- Which sequence slot an in-range cursor's stage occupies: the resolved
identifier matches the slot-`j` identifier exactly when `j` is the cursor
(the Standard Sequence has no duplicates). -/
theorem seq_match0 (J : ℤ) (h0 : 0 ≤ J) (h6 : J < 6) (j : ℕ) (hj : j ≤ 5) :
    (seqGet OPERATION_SEQUENCE J == OPERATION_SEQUENCE.getD j "") =
      decide ((j : ℤ) = J) := by
  have hJ : J = 0 ∨ J = 1 ∨ J = 2 ∨ J = 3 ∨ J = 4 ∨ J = 5 := by omega
  rcases hJ with rfl | rfl | rfl | rfl | rfl | rfl <;>
    interval_cases j <;> decide

/-- The inspection stage sits exactly at index 4 of the Standard
Sequence. -/
theorem seq_op5_iff (J : ℤ) (h0 : 0 ≤ J) (h6 : J < 6) :
    seqGet OPERATION_SEQUENCE J = "OP5" ↔ J = 4 := by
  have hJ : J = 0 ∨ J = 1 ∨ J = 2 ∨ J = 3 ∨ J = 4 ∨ J = 5 := by omega
  rcases hJ with rfl | rfl | rfl | rfl | rfl | rfl <;> decide

theorem seqGet_eq_getD (J : ℤ) (h0 : 0 ≤ J) :
    seqGet OPERATION_SEQUENCE J = OPERATION_SEQUENCE.getD J.toNat "" := by
  unfold seqGet
  rw [if_pos h0]

/-- Range-and-defect-key invariant of a case state: the cursor stays in
[0, 6] and, while the case can still reach the inspection stage, every
unresolved latent defect is keyed by a stage at index ≤ 3 (the stages
before inspection that can be detected). -/
def IdxInv (c : CaseSt) : Prop :=
  0 ≤ c.opIdx ∧ c.opIdx ≤ 6 ∧
  (c.opIdx ≤ 5 → ∀ p ∈ c.defects, p.2 = true →
    ∃ jj, jj ≤ 3 ∧ OPERATION_SEQUENCE.getD jj "" = p.1)

/-- Counting invariant of a case mid-traversal: visits to slot `j ≤ 4` so
far are the redirects re-entering at or before `j` plus one once the cursor
has passed `j`; the post-inspection stage (slot 5) is visited only by the
final pass. -/
def CountInv (cn : ℤ) (s : SimSt) (c : CaseSt) : Prop :=
  (∀ j : ℕ, j ≤ 4 → vcountL s.events cn j =
    rcountL s.redirects cn j + (if (j : ℤ) < c.opIdx then 1 else 0)) ∧
  vcountL s.events cn 5 = (if (5 : ℤ) < c.opIdx then 1 else 0)

theorem c7_step {d : Draws} {s : SimSt} {c : CaseSt} {s2 : SimSt}
    {c2 : CaseSt} (hlt : c.opIdx < 6) (hIdx : IdxInv c)
    (hcs : caseStep OPERATIONS OPERATION_SEQUENCE REWORK_ROUTES d s c =
      .ok (s2, c2)) :
    IdxInv c2 ∧ c2.case_num = c.case_num ∧
      ∀ cn, c.case_num = cn → CountInv cn s c → CountInv cn s2 c2 := by
  obtain ⟨op, dd, rds, df2, base, py2, hop, hne, hs2, hc2, hbr⟩ :=
    caseStep_spec hcs
  obtain ⟨h0, h6cap, hkeys⟩ := hIdx
  have hev2 : s2.events =
      s.events ++ [stepEvent d s c (stepOpId OPERATION_SEQUENCE c) op dd] := by
    rw [hs2]
  have hrd2 : s2.redirects = s.redirects ++ rds := by
    rw [hs2]
  have hidx2 : c2.opIdx = base + 1 := by
    rw [hc2]
  have hdef2 : c2.defects = df2 := by
    rw [hc2]
  have hcn2 : c2.case_num = c.case_num := by
    rw [hc2]
  have hevcn : (stepEvent d s c (stepOpId OPERATION_SEQUENCE c) op
      dd).case_num = c.case_num := rfl
  have hvstep : ∀ (cn : ℤ), c.case_num = cn → ∀ j : ℕ, j ≤ 5 →
      vcountL s2.events cn j = vcountL s.events cn j +
        (if (j : ℤ) = c.opIdx then 1 else 0) := by
    intro cn hcn j hj
    rw [hev2, vcountL_append, vcountL_single j (by rw [hevcn, hcn])]
    congr 1
    have hm : ((stepEvent d s c (stepOpId OPERATION_SEQUENCE c) op
        dd).operation_id == OPERATION_SEQUENCE.getD j "") =
        decide ((j : ℤ) = c.opIdx) := seq_match0 c.opIdx h0 hlt j hj
    rw [hm]
    by_cases hq : (j : ℤ) = c.opIdx
    · simp [hq]
    · simp [hq]
  rcases hbr with ⟨hq5, hdd, hrds, hbase, hpy, hdf⟩ | ⟨hq5, hsub⟩
  · have hne4 : c.opIdx ≠ 4 := fun h4 =>
      hq5 ((seq_op5_iff c.opIdx h0 hlt).mpr h4)
    have hrds2 : s2.redirects = s.redirects := by
      rw [hrd2, hrds, List.append_nil]
    refine ⟨⟨by omega, by omega, ?_⟩, hcn2, ?_⟩
    · intro hle p hp ht
      obtain ⟨pk, pv⟩ := p
      simp only at ht
      subst ht
      rw [hidx2, hbase] at hle
      rw [hdef2] at hp
      rcases hdf with hdf | hdf
      · rw [hdf] at hp
        rcases mem_setDefect_true hp with ⟨hpk, _⟩ | hold
        · refine ⟨c.opIdx.toNat, by omega, ?_⟩
          rw [hpk]
          exact (seqGet_eq_getD c.opIdx h0).symm
        · exact hkeys (by omega) (pk, true) hold rfl
      · rw [hdf] at hp
        exact hkeys (by omega) (pk, true) hp rfl
    · intro cn hcn hCI
      obtain ⟨hC4, hC5⟩ := hCI
      constructor
      · intro j hj
        rw [hvstep cn hcn j (by omega), hrds2, hidx2, hbase, hC4 j hj]
        split_ifs <;> omega
      · rw [hvstep cn hcn 5 (le_refl 5), hidx2, hbase, hC5]
        split_ifs <;> omega
  · have hJ4 : c.opIdx = 4 := (seq_op5_iff c.opIdx h0 hlt).mp hq5
    rcases hsub with ⟨hscan, hdd, hrds, hbase, hdf⟩ |
      ⟨prev, ti, hscan, hti, hdd, hrds, hbase, hdf⟩
    · have hrds2 : s2.redirects = s.redirects := by
        rw [hrd2, hrds, List.append_nil]
      refine ⟨⟨by omega, by omega, ?_⟩, hcn2, ?_⟩
      · intro hle p hp ht
        obtain ⟨pk, pv⟩ := p
        simp only at ht
        subst ht
        rw [hdef2, hdf] at hp
        exact hkeys (by omega) (pk, true) hp rfl
      · intro cn hcn hCI
        obtain ⟨hC4, hC5⟩ := hCI
        constructor
        · intro j hj
          rw [hvstep cn hcn j (by omega), hrds2, hidx2, hbase, hC4 j hj, hJ4]
          split_ifs <;> omega
        · rw [hvstep cn hcn 5 (le_refl 5), hidx2, hbase, hC5, hJ4]
          split_ifs <;> omega
    · have hpm := qcScan_some_mem hscan
      obtain ⟨jj, hjj3, hjje0⟩ := hkeys (by omega) (prev, true) hpm rfl
      have hjje : OPERATION_SEQUENCE.getD jj "" = prev := hjje0
      have hti3 : ti ≤ 3 := by
        interval_cases jj
        · have hp1 : prev = "OP1" := hjje.symm.trans rfl
          subst hp1
          rw [show lookupD REWORK_ROUTES "OP1" "OP1" = "OP1" from rfl,
            show get_operation_index OPERATION_SEQUENCE "OP1" = Except.ok 0
              from rfl] at hti
          injection hti with hh
          omega
        · have hp1 : prev = "OP2" := hjje.symm.trans rfl
          subst hp1
          rw [show lookupD REWORK_ROUTES "OP2" "OP2" = "OP2" from rfl,
            show get_operation_index OPERATION_SEQUENCE "OP2" = Except.ok 1
              from rfl] at hti
          injection hti with hh
          omega
        · have hp1 : prev = "OP3" := hjje.symm.trans rfl
          subst hp1
          rw [show lookupD REWORK_ROUTES "OP3" "OP3" = "OP3" from rfl,
            show get_operation_index OPERATION_SEQUENCE "OP3" = Except.ok 2
              from rfl] at hti
          injection hti with hh
          omega
        · have hp1 : prev = "OP4" := hjje.symm.trans rfl
          subst hp1
          rw [show lookupD REWORK_ROUTES "OP4" "OP4" = "OP4" from rfl,
            show get_operation_index OPERATION_SEQUENCE "OP4" = Except.ok 3
              from rfl] at hti
          injection hti with hh
          omega
      have hidxeq : c2.opIdx = (ti : ℤ) := by
        rw [hidx2, hbase]
        ring
      refine ⟨⟨by omega, by omega, ?_⟩, hcn2, ?_⟩
      · intro hle p hp ht
        obtain ⟨pk, pv⟩ := p
        simp only at ht
        subst ht
        rw [hdef2, hdf] at hp
        rcases mem_setDefect_true hp with ⟨_, hfalse⟩ | hold
        · exact absurd hfalse (by decide)
        · exact hkeys (by omega) (pk, true) hold rfl
      · intro cn hcn hCI
        obtain ⟨hC4, hC5⟩ := hCI
        have hrcnt : ∀ j, rcountL s2.redirects cn j =
            rcountL s.redirects cn j + (if ti ≤ j then 1 else 0) := by
          intro j
          rw [hrd2, hrds, rcountL_append, rcountL_single j hcn]
        constructor
        · intro j hj
          rw [hvstep cn hcn j (by omega), hrcnt j, hidxeq, hC4 j hj, hJ4]
          split_ifs <;> omega
        · rw [hvstep cn hcn 5 (le_refl 5), hidxeq, hC5, hJ4]
          split_ifs <;> omega

/-- The per-case loop preserves the counting invariant and, whenever it
completes, leaves the cursor exactly past the last sequence index. -/
theorem c7_loop {d : Draws} :
    ∀ (fuel : ℕ) (s : SimSt) (c : CaseSt) (s2 : SimSt) (c2 : CaseSt),
      IdxInv c →
      simCaseLoop OPERATIONS OPERATION_SEQUENCE REWORK_ROUTES d fuel s c =
        .ok (s2, c2) →
      c2.case_num = c.case_num ∧ c2.opIdx = 6 ∧
        ∀ cn, c.case_num = cn → CountInv cn s c → CountInv cn s2 c2 := by
  intro fuel
  induction fuel with
  | zero =>
    intro s c s2 c2 hIdx h
    unfold simCaseLoop at h
    split at h
    · exact Except.noConfusion h
    · rename_i hge
      injection h with h1
      injection h1 with hs hc
      subst hs
      subst hc
      have hlen : ((OPERATION_SEQUENCE.length : ℕ) : ℤ) = 6 := by decide
      rw [hlen] at hge
      refine ⟨rfl, ?_, fun cn hcn hCI => hCI⟩
      have h6 := hIdx.2.1
      omega
  | succ f ih =>
    intro s c s2 c2 hIdx h
    unfold simCaseLoop at h
    split at h
    · rename_i hlt0
      cases hcs : caseStep OPERATIONS OPERATION_SEQUENCE REWORK_ROUTES d s c with
      | error e => rw [hcs] at h; exact Except.noConfusion h
      | ok pr =>
        rw [hcs] at h
        obtain ⟨sm, cm⟩ := pr
        have hlen : ((OPERATION_SEQUENCE.length : ℕ) : ℤ) = 6 := by decide
        rw [hlen] at hlt0
        obtain ⟨hIdx2, hcn2, hcnt⟩ := c7_step hlt0 hIdx hcs
        obtain ⟨hcnr, hidxr, hcntr⟩ := ih sm cm s2 c2 hIdx2 h
        refine ⟨hcnr.trans hcn2, hidxr, ?_⟩
        intro cn hcn hCI
        exact hcntr cn (hcn2.trans hcn) (hcnt cn hcn hCI)
    · rename_i hge
      injection h with h1
      injection h1 with hs hc
      subst hs
      subst hc
      have hlen : ((OPERATION_SEQUENCE.length : ℕ) : ℤ) = 6 := by decide
      rw [hlen] at hge
      refine ⟨rfl, ?_, fun cn hcn hCI => hCI⟩
      have h6 := hIdx.2.1
      omega

/-- Frame lemma for the outer loop: a batch of cases only appends events
and redirects, each carrying one of the batch's case numbers. -/
theorem runCases_frame {ops : List Operation} {seq : List String}
    {routes : List (String × String)} {d : Draws} {fuel : ℕ} :
    ∀ (ns : List ℤ) (arr : ℚ) (s s2 : SimSt),
      runCases ops seq routes d fuel ns arr s = .ok s2 →
      ∃ new newr, s2.events = s.events ++ new ∧
        s2.redirects = s.redirects ++ newr ∧
        (∀ e ∈ new, e.case_num ∈ ns) ∧ (∀ r ∈ newr, r.case_num ∈ ns) := by
  intro ns
  induction ns with
  | nil =>
    intro arr s s2 h
    unfold runCases at h
    injection h with h1
    subst h1
    exact ⟨[], [], by simp, by simp, by simp, by simp⟩
  | cons n rest ih =>
    intro arr s s2 h
    simp only [runCases] at h
    cases hcl : simCaseLoop ops seq routes d fuel
        { s with npIdx := s.npIdx + 1 }
        (initCase n (arr + d.exponential s.npIdx 30)) with
    | error e => rw [hcl] at h; exact Except.noConfusion h
    | ok pr =>
      rw [hcl] at h
      obtain ⟨sm, cm⟩ := pr
      obtain ⟨_, new1, newr1, he1, hr1, hne1, hnr1⟩ := simCaseLoop_frame fuel hcl
      obtain ⟨new2, newr2, he2, hr2, hne2, hnr2⟩ := ih _ sm s2 h
      refine ⟨new1 ++ new2, newr1 ++ newr2, ?_, ?_, ?_, ?_⟩
      · rw [he2, he1]
        rw [show SimSt.events { s with npIdx := s.npIdx + 1 } = s.events
          from rfl]
        simp
      · rw [hr2, hr1]
        rw [show SimSt.redirects { s with npIdx := s.npIdx + 1 } = s.redirects
          from rfl]
        simp
      · intro e he
        rcases List.mem_append.mp he with h1 | h1
        · have hc := hne1 e h1
          rw [show (initCase n (arr + d.exponential s.npIdx 30)).case_num = n
            from rfl] at hc
          rw [hc]
          exact List.mem_cons_self _ _
        · exact List.mem_cons_of_mem _ (hne2 e h1)
      · intro r hr
        rcases List.mem_append.mp hr with h1 | h1
        · have hc := hnr1 r h1
          rw [show (initCase n (arr + d.exponential s.npIdx 30)).case_num = n
            from rfl] at hc
          rw [hc]
          exact List.mem_cons_self _ _
        · exact List.mem_cons_of_mem _ (hnr2 r h1)

/-- Lifting the per-case counting invariant over a whole batch: provided
every batch member is fresh (no prior events or redirects), each completed
case's visit counts obey the corrected rework accounting. -/
theorem c7_cases {d : Draws} {fuel : ℕ} :
    ∀ (ns : List ℤ) (arr : ℚ) (s : SimSt) (s2 : SimSt), ns.Nodup →
      (∀ m ∈ ns, s.events.filter (fun e => e.case_num == m) = [] ∧
        s.redirects.filter (fun r => r.case_num == m) = []) →
      runCases OPERATIONS OPERATION_SEQUENCE REWORK_ROUTES d fuel ns arr s =
        .ok s2 →
      ∀ m ∈ ns, (∀ j : ℕ, j ≤ 4 →
        vcountL s2.events m j = rcountL s2.redirects m j + 1) ∧
        vcountL s2.events m 5 = 1 := by
  intro ns
  induction ns with
  | nil =>
    intro arr s s2 hnd hFr h m hm
    exact absurd hm (List.not_mem_nil m)
  | cons n rest ih =>
    intro arr s s2 hnd hFr h m hm
    simp only [runCases] at h
    cases hcl : simCaseLoop OPERATIONS OPERATION_SEQUENCE REWORK_ROUTES d fuel
        { s with npIdx := s.npIdx + 1 }
        (initCase n (arr + d.exponential s.npIdx 30)) with
    | error e => rw [hcl] at h; exact Except.noConfusion h
    | ok pr =>
      rw [hcl] at h
      obtain ⟨sm, cm⟩ := pr
      rcases List.mem_cons.mp hm with rfl | hmr
      · have hIdx0 : IdxInv (initCase m (arr + d.exponential s.npIdx 30)) := by
          refine ⟨by simp [initCase], by simp [initCase], ?_⟩
          intro _ p hp _
          simp [initCase] at hp
        obtain ⟨hcnL, hidxL, hcntL⟩ := c7_loop fuel _ _ sm cm hIdx0 hcl
        have hCI0 : CountInv m { s with npIdx := s.npIdx + 1 }
            (initCase m (arr + d.exponential s.npIdx 30)) := by
          constructor
          · intro j hj
            rw [show SimSt.events { s with npIdx := s.npIdx + 1 } = s.events
              from rfl,
              show SimSt.redirects { s with npIdx := s.npIdx + 1 } =
                s.redirects from rfl]
            rw [vcountL_zero_of_fresh (hFr m (List.mem_cons_self _ _)).1 j,
              rcountL_zero_of_fresh (hFr m (List.mem_cons_self _ _)).2 j]
            rw [show (initCase m (arr + d.exponential s.npIdx 30)).opIdx = 0
              from rfl]
            have hneg : ¬ ((j : ℤ) < 0) := by omega
            rw [if_neg hneg]
          · rw [show SimSt.events { s with npIdx := s.npIdx + 1 } = s.events
              from rfl]
            rw [vcountL_zero_of_fresh (hFr m (List.mem_cons_self _ _)).1 5]
            rw [show (initCase m (arr + d.exponential s.npIdx 30)).opIdx = 0
              from rfl]
            norm_num
        have hCIm : CountInv m sm cm := hcntL m rfl hCI0
        obtain ⟨new2, newr2, he2, hr2, hne2, hnr2⟩ :=
          runCases_frame rest _ sm s2 h
        have hnewE : new2.filter (fun e => e.case_num == m) = [] := by
          refine List.filter_eq_nil_iff.mpr ?_
          intro e he
          have hin := hne2 e he
          simp only [beq_iff_eq]
          intro hceq
          rw [hceq] at hin
          exact (List.nodup_cons.mp hnd).1 hin
        have hnewR : newr2.filter (fun r => r.case_num == m) = [] := by
          refine List.filter_eq_nil_iff.mpr ?_
          intro r hr
          have hin := hnr2 r hr
          simp only [beq_iff_eq]
          intro hceq
          rw [hceq] at hin
          exact (List.nodup_cons.mp hnd).1 hin
        refine ⟨?_, ?_⟩
        · intro j hj
          rw [he2, hr2, vcountL_append, rcountL_append,
            vcountL_zero_of_fresh hnewE j, rcountL_zero_of_fresh hnewR j]
          have hq := hCIm.1 j hj
          rw [hidxL, if_pos (by omega : ((j : ℕ) : ℤ) < 6)] at hq
          omega
        · rw [he2, vcountL_append, vcountL_zero_of_fresh hnewE 5]
          have hq := hCIm.2
          rw [hidxL, if_pos (by norm_num : (5 : ℤ) < 6)] at hq
          omega
      · obtain ⟨_, new1, newr1, he1, hr1, hne1, hnr1⟩ :=
          simCaseLoop_frame fuel hcl
        refine ih _ sm s2 (List.Nodup.of_cons hnd) ?_ h m hmr
        intro m2 hm2
        constructor
        · rw [he1, show SimSt.events { s with npIdx := s.npIdx + 1 } = s.events
            from rfl]
          rw [List.filter_append, (hFr m2 (List.mem_cons_of_mem _ hm2)).1,
            List.nil_append]
          refine List.filter_eq_nil_iff.mpr ?_
          intro e he
          have hc := hne1 e he
          rw [show (initCase n (arr + d.exponential s.npIdx 30)).case_num = n
            from rfl] at hc
          simp only [beq_iff_eq, hc]
          intro hcontra
          rw [← hcontra] at hm2
          exact (List.nodup_cons.mp hnd).1 hm2
        · rw [hr1, show SimSt.redirects { s with npIdx := s.npIdx + 1 } =
            s.redirects from rfl]
          rw [List.filter_append, (hFr m2 (List.mem_cons_of_mem _ hm2)).2,
            List.nil_append]
          refine List.filter_eq_nil_iff.mpr ?_
          intro r hr
          have hc := hnr1 r hr
          rw [show (initCase n (arr + d.exponential s.npIdx 30)).case_num = n
            from rfl] at hc
          simp only [beq_iff_eq, hc]
          intro hcontra
          rw [← hcontra] at hm2
          exact (List.nodup_cons.mp hnd).1 hm2

/-- C7 (amended): in any completed run, a case's visit count at sequence
position `j ≤ 4` equals 1 plus the number of that case's rework redirects
re-entering at or before position `j` (a redirect re-runs every stage from
its target through inspection, not only the target stage), the
post-inspection stage is visited exactly once, and any completed traversal
ends with the case's cursor exactly past the last sequence index. -/
theorem rework_visit_accounting {n : ℤ} {t0 : ℚ} {d : Draws} {fuel : ℕ}
    {s : SimSt}
    (h : runSim OPERATIONS OPERATION_SEQUENCE REWORK_ROUTES n t0 d fuel =
      .ok s) :
    (∀ cn ∈ caseNums n,
      (∀ j : ℕ, j ≤ 4 →
        vcountL s.events cn j = rcountL s.redirects cn j + 1) ∧
      vcountL s.events cn 5 = 1) ∧
    ∀ (fuel2 : ℕ) (s1 : SimSt) (c : CaseSt) (s2 : SimSt) (c2 : CaseSt),
      IdxInv c →
      simCaseLoop OPERATIONS OPERATION_SEQUENCE REWORK_ROUTES d fuel2 s1 c =
        .ok (s2, c2) →
      c2.opIdx = (OPERATION_SEQUENCE.length : ℤ) := by
  constructor
  · refine c7_cases (caseNums n) t0 (initSim OPERATIONS t0) s (caseNums_nodup n)
      ?_ h
    intro m hm
    exact ⟨rfl, rfl⟩
  · intro fuel2 s1 c s2 c2 hIdx hloop
    have h6 := (c7_loop fuel2 s1 c s2 c2 hIdx hloop).2.1
    rw [h6]
    decide

/-- Witness for the amended C7 at a concrete one-case run. -/
theorem rework_visit_accounting_witness :
    ∃ s, runSim OPERATIONS OPERATION_SEQUENCE REWORK_ROUTES 1 0 calmDraws 6 =
      .ok s ∧
      ∀ cn ∈ caseNums 1,
        (∀ j : ℕ, j ≤ 4 →
          vcountL s.events cn j = rcountL s.redirects cn j + 1) ∧
        vcountL s.events cn 5 = 1 := by
  obtain ⟨s, hs, _⟩ :=
    @calm_runSim REWORK_ROUTES calmDraws calmDraws_ge 6 (le_refl 6) 1 0
  exact ⟨s, hs, (rework_visit_accounting hs).1⟩

/-- The final assembly stage of the catalog. -/
theorem get_op6 : get_operation_by_id OPERATIONS "OP6" = .ok
    { id := "OP6", name := "Assembly & Packaging",
      name_fr := "Assemblage et Conditionnement",
      avg_duration_minutes := 25.0, std_deviation_minutes := 5.0,
      setup_time_minutes := 5.0, defect_rate := 0.02,
      workstation_count := 2 } := rfl

/-- A draw assignment producing exactly one latent defect (at the machining
stage, python draw 1) and exactly one detection (at the first inspection
visit, python draw 4); every other uniform draw is 1 and every duration
draw is 0. -/
def reworkDraws : Draws :=
  { exponential := fun _ _ => 0, normal := fun _ _ _ => 0,
    random := fun i => if i = 1 then 0 else if i = 4 then 0 else 1 }

/-- Control trace (sequence cursor, defect dict, python draw counter) of a
fresh case under `reworkDraws`: OP2 records a defect, the first inspection
detects it and redirects to position 1, the second pass is clean. -/
def rwCtrl : List (ℤ × List (String × Bool) × ℕ) := [
  (0, [], 0),
  (1, [], 1),
  (2, [("OP2", true)], 2),
  (3, [("OP2", true)], 3),
  (4, [("OP2", true)], 4),
  (1, [("OP2", false)], 5),
  (2, [("OP2", false)], 6),
  (3, [("OP2", false)], 7),
  (4, [("OP2", false)], 8),
  (5, [("OP2", false)], 8),
  (6, [("OP2", false)], 9)]

/-- Stage identifiers visited by that trace, in emission order. -/
def rwOps : List String :=
  ["OP1", "OP2", "OP3", "OP4", "OP5", "OP2", "OP3", "OP4", "OP5", "OP6"]

/-- Identity-level projection of an event: which case, which stage. -/
def evProj (e : Event) : ℤ × String := (e.case_num, e.operation_id)

/-- Identity-level projection of a redirect: which case, which target. -/
def rdProj (r : Redirect) : ℤ × ℕ := (r.case_num, r.target)

/-- Number of redirects of case `cn` whose re-entry index is exactly `j` —
the quantity named by the specification's rework bound. -/
def rtargetL (rds : List Redirect) (cn : ℤ) (j : ℕ) : ℕ :=
  (rds.filter (fun r => r.case_num == cn && decide (r.target = j))).length

theorem length_filter_map {α β : Type} (f : α → β) (p : β → Bool) :
    ∀ l : List α, ((l.map f).filter p).length =
      (l.filter (fun a => p (f a))).length
  | [] => rfl
  | a :: l => by
    simp only [List.map_cons, List.filter_cons]
    cases hpa : p (f a)
    · simpa using length_filter_map f p l
    · simpa using length_filter_map f p l

/-- Visit counts only depend on the identity projection of the log. -/
theorem vcountL_of_map {evs : List Event} {L : List (ℤ × String)}
    (h : evs.map evProj = L) (cn : ℤ) (j : ℕ) :
    vcountL evs cn j = (L.filter (fun pr =>
      pr.1 == cn && pr.2 == OPERATION_SEQUENCE.getD j "")).length := by
  subst h
  unfold vcountL
  rw [length_filter_map]
  rfl

/-- Exact-target redirect counts only depend on the identity projection. -/
theorem rtargetL_of_map {rds : List Redirect} {L : List (ℤ × ℕ)}
    (h : rds.map rdProj = L) (cn : ℤ) (j : ℕ) :
    rtargetL rds cn j = (L.filter (fun pr =>
      pr.1 == cn && decide (pr.2 = j))).length := by
  subst h
  unfold rtargetL
  rw [length_filter_map]
  rfl

/-- One step of the crafted run follows the control trace, emitting the
scheduled stage's event and, at the first inspection only, the single
redirect re-entering at position 1. -/
theorem rework_step (s : SimSt) (c : CaseSt) (k : ℕ) (hws : WsInv s)
    (hk : k < 10)
    (hctrl : (c.opIdx, c.defects, s.pyIdx) = rwCtrl.getD k (0, [], 0)) :
    ∃ s2 c2, caseStep OPERATIONS OPERATION_SEQUENCE REWORK_ROUTES reworkDraws
        s c = .ok (s2, c2) ∧
      (c2.opIdx, c2.defects, s2.pyIdx) = rwCtrl.getD (k + 1) (0, [], 0) ∧
      WsInv s2 ∧ c2.case_num = c.case_num ∧
      s2.events.map evProj =
        s.events.map evProj ++ [(c.case_num, rwOps.getD k "")] ∧
      s2.redirects.map rdProj =
        s.redirects.map rdProj ++ (if k = 4 then [(c.case_num, 1)] else []) := by
  interval_cases k
  · have hctrl2 : (c.opIdx, c.defects, s.pyIdx) = ((0 : ℤ), ([] : List (String × Bool)), (0 : ℕ)) := hctrl
    injection hctrl2 with hIdx h23
    injection h23 with hDef hPy
    have hseq : seqGet OPERATION_SEQUENCE c.opIdx = "OP1" := by
      rw [hIdx]
      rfl
    simp only [caseStep, hseq, get_op1,
      ws_isEmpty_false hws "OP1" (by decide), Bool.false_eq_true, if_false]
    rw [hPy]
    norm_num [reworkDraws]
    refine ⟨_, _, rfl, ?_, wsInv_update hws _ _ _ _ _ _ _, rfl, ?_, ?_⟩
    · rw [hIdx, hDef]
      simp [rwCtrl, setDefect]
    · simp [evProj, rwOps]
    · simp [rdProj]
  · have hctrl2 : (c.opIdx, c.defects, s.pyIdx) = ((1 : ℤ), ([] : List (String × Bool)), (1 : ℕ)) := hctrl
    injection hctrl2 with hIdx h23
    injection h23 with hDef hPy
    have hseq : seqGet OPERATION_SEQUENCE c.opIdx = "OP2" := by
      rw [hIdx]
      rfl
    simp only [caseStep, hseq, get_op2,
      ws_isEmpty_false hws "OP2" (by decide), Bool.false_eq_true, if_false]
    rw [hPy]
    norm_num [reworkDraws]
    refine ⟨_, _, rfl, ?_, wsInv_update hws _ _ _ _ _ _ _, rfl, ?_, ?_⟩
    · rw [hIdx, hDef]
      simp [rwCtrl, setDefect]
    · simp [evProj, rwOps]
    · simp [rdProj]
  · have hctrl2 : (c.opIdx, c.defects, s.pyIdx) = ((2 : ℤ), ([("OP2", true)] : List (String × Bool)), (2 : ℕ)) := hctrl
    injection hctrl2 with hIdx h23
    injection h23 with hDef hPy
    have hseq : seqGet OPERATION_SEQUENCE c.opIdx = "OP3" := by
      rw [hIdx]
      rfl
    simp only [caseStep, hseq, get_op3,
      ws_isEmpty_false hws "OP3" (by decide), Bool.false_eq_true, if_false]
    rw [hPy]
    norm_num [reworkDraws]
    refine ⟨_, _, rfl, ?_, wsInv_update hws _ _ _ _ _ _ _, rfl, ?_, ?_⟩
    · rw [hIdx, hDef]
      simp [rwCtrl, setDefect]
    · simp [evProj, rwOps]
    · simp [rdProj]
  · have hctrl2 : (c.opIdx, c.defects, s.pyIdx) = ((3 : ℤ), ([("OP2", true)] : List (String × Bool)), (3 : ℕ)) := hctrl
    injection hctrl2 with hIdx h23
    injection h23 with hDef hPy
    have hseq : seqGet OPERATION_SEQUENCE c.opIdx = "OP4" := by
      rw [hIdx]
      rfl
    simp only [caseStep, hseq, get_op4,
      ws_isEmpty_false hws "OP4" (by decide), Bool.false_eq_true, if_false]
    rw [hPy]
    norm_num [reworkDraws]
    refine ⟨_, _, rfl, ?_, wsInv_update hws _ _ _ _ _ _ _, rfl, ?_, ?_⟩
    · rw [hIdx, hDef]
      simp [rwCtrl, setDefect]
    · simp [evProj, rwOps]
    · simp [rdProj]
  · have hctrl2 : (c.opIdx, c.defects, s.pyIdx) = ((4 : ℤ), ([("OP2", true)] : List (String × Bool)), (4 : ℕ)) := hctrl
    injection hctrl2 with hIdx h23
    injection h23 with hDef hPy
    have hseq : seqGet OPERATION_SEQUENCE c.opIdx = "OP5" := by
      rw [hIdx]
      rfl
    have hscan : qcScan reworkDraws.random s.pyIdx c.defects =
        (5, some "OP2") := by
      rw [hDef, hPy]
      unfold qcScan
      rw [if_pos rfl, if_pos (show reworkDraws.random 4 < (0.8 : ℚ) by
        norm_num [reworkDraws])]
    have hlk : lookupD REWORK_ROUTES "OP2" "OP2" = "OP2" := rfl
    have hgi : get_operation_index OPERATION_SEQUENCE "OP2" = .ok 1 := rfl
    simp only [caseStep, hseq, get_op5,
      ws_isEmpty_false hws "OP5" (by decide), Bool.false_eq_true, if_false,
      hscan, hlk, hgi, if_pos rfl]
    refine ⟨_, _, rfl, ?_, wsInv_update hws _ _ _ _ _ _ _, rfl, ?_, ?_⟩
    · rw [hDef]
      simp [rwCtrl, setDefect]
    · simp [evProj, rwOps]
    · simp [rdProj]
  · have hctrl2 : (c.opIdx, c.defects, s.pyIdx) = ((1 : ℤ), ([("OP2", false)] : List (String × Bool)), (5 : ℕ)) := hctrl
    injection hctrl2 with hIdx h23
    injection h23 with hDef hPy
    have hseq : seqGet OPERATION_SEQUENCE c.opIdx = "OP2" := by
      rw [hIdx]
      rfl
    simp only [caseStep, hseq, get_op2,
      ws_isEmpty_false hws "OP2" (by decide), Bool.false_eq_true, if_false]
    rw [hPy]
    norm_num [reworkDraws]
    refine ⟨_, _, rfl, ?_, wsInv_update hws _ _ _ _ _ _ _, rfl, ?_, ?_⟩
    · rw [hIdx, hDef]
      simp [rwCtrl, setDefect]
    · simp [evProj, rwOps]
    · simp [rdProj]
  · have hctrl2 : (c.opIdx, c.defects, s.pyIdx) = ((2 : ℤ), ([("OP2", false)] : List (String × Bool)), (6 : ℕ)) := hctrl
    injection hctrl2 with hIdx h23
    injection h23 with hDef hPy
    have hseq : seqGet OPERATION_SEQUENCE c.opIdx = "OP3" := by
      rw [hIdx]
      rfl
    simp only [caseStep, hseq, get_op3,
      ws_isEmpty_false hws "OP3" (by decide), Bool.false_eq_true, if_false]
    rw [hPy]
    norm_num [reworkDraws]
    refine ⟨_, _, rfl, ?_, wsInv_update hws _ _ _ _ _ _ _, rfl, ?_, ?_⟩
    · rw [hIdx, hDef]
      simp [rwCtrl, setDefect]
    · simp [evProj, rwOps]
    · simp [rdProj]
  · have hctrl2 : (c.opIdx, c.defects, s.pyIdx) = ((3 : ℤ), ([("OP2", false)] : List (String × Bool)), (7 : ℕ)) := hctrl
    injection hctrl2 with hIdx h23
    injection h23 with hDef hPy
    have hseq : seqGet OPERATION_SEQUENCE c.opIdx = "OP4" := by
      rw [hIdx]
      rfl
    simp only [caseStep, hseq, get_op4,
      ws_isEmpty_false hws "OP4" (by decide), Bool.false_eq_true, if_false]
    rw [hPy]
    norm_num [reworkDraws]
    refine ⟨_, _, rfl, ?_, wsInv_update hws _ _ _ _ _ _ _, rfl, ?_, ?_⟩
    · rw [hIdx, hDef]
      simp [rwCtrl, setDefect]
    · simp [evProj, rwOps]
    · simp [rdProj]
  · have hctrl2 : (c.opIdx, c.defects, s.pyIdx) = ((4 : ℤ), ([("OP2", false)] : List (String × Bool)), (8 : ℕ)) := hctrl
    injection hctrl2 with hIdx h23
    injection h23 with hDef hPy
    have hseq : seqGet OPERATION_SEQUENCE c.opIdx = "OP5" := by
      rw [hIdx]
      rfl
    have hscan : qcScan reworkDraws.random s.pyIdx c.defects =
        (8, none) := by
      rw [hDef, hPy]
      rfl
    simp only [caseStep, hseq, get_op5,
      ws_isEmpty_false hws "OP5" (by decide), Bool.false_eq_true, if_false,
      hscan, if_pos rfl]
    refine ⟨_, _, rfl, ?_, wsInv_update hws _ _ _ _ _ _ _, rfl, ?_, ?_⟩
    · rw [hIdx, hDef]
      simp [rwCtrl, setDefect]
    · simp [evProj, rwOps]
    · simp [rdProj]
  · have hctrl2 : (c.opIdx, c.defects, s.pyIdx) = ((5 : ℤ), ([("OP2", false)] : List (String × Bool)), (8 : ℕ)) := hctrl
    injection hctrl2 with hIdx h23
    injection h23 with hDef hPy
    have hseq : seqGet OPERATION_SEQUENCE c.opIdx = "OP6" := by
      rw [hIdx]
      rfl
    simp only [caseStep, hseq, get_op6,
      ws_isEmpty_false hws "OP6" (by decide), Bool.false_eq_true, if_false]
    rw [hPy]
    norm_num [reworkDraws]
    refine ⟨_, _, rfl, ?_, wsInv_update hws _ _ _ _ _ _ _, rfl, ?_, ?_⟩
    · rw [hIdx, hDef]
      simp [rwCtrl, setDefect]
    · simp [evProj, rwOps]
    · simp [rdProj]

/-- Identity trace the crafted run leaves from position `k` on. -/
def rwTraceFrom (cn : ℤ) (k : ℕ) : List (ℤ × String) :=
  (rwOps.drop k).map (fun x => (cn, x))

/-- Redirect trace the crafted run leaves from position `k` on: the single
redirect fires at step 4. -/
def rwRedFrom (cn : ℤ) (k : ℕ) : List (ℤ × ℕ) :=
  if k ≤ 4 then [(cn, 1)] else []

/-- Composing the crafted steps: from trace position `k` with `10 - k`
fuel, the per-case loop completes and appends exactly the scheduled
events and redirects. -/
theorem rework_seg : ∀ (j k : ℕ), k + j = 10 → ∀ (s : SimSt) (c : CaseSt),
    WsInv s → (c.opIdx, c.defects, s.pyIdx) = rwCtrl.getD k (0, [], 0) →
    ∃ s2 c2, simCaseLoop OPERATIONS OPERATION_SEQUENCE REWORK_ROUTES
        reworkDraws j s c = .ok (s2, c2) ∧
      s2.events.map evProj = s.events.map evProj ++ rwTraceFrom c.case_num k ∧
      s2.redirects.map rdProj =
        s.redirects.map rdProj ++ rwRedFrom c.case_num k := by
  intro j
  induction j with
  | zero =>
    intro k hk s c hws hctrl
    have hk10 : k = 10 := by omega
    subst hk10
    have hIdx : c.opIdx = 6 := congrArg (fun t => t.1) hctrl
    unfold simCaseLoop
    rw [if_neg (by rw [hIdx]; decide)]
    refine ⟨s, c, rfl, ?_, ?_⟩
    · rw [show rwTraceFrom c.case_num 10 = [] from rfl]
      simp
    · rw [show rwRedFrom c.case_num 10 = [] from rfl]
      simp
  | succ jj ih =>
    intro k hk s c hws hctrl
    have hklt : k < 10 := by omega
    obtain ⟨s2, c2, hstep, hctrl2, hws2, hcn2, hev2, hrd2⟩ :=
      rework_step s c k hws hklt hctrl
    have hIdx1 : c.opIdx = (rwCtrl.getD k (0, [], 0)).1 :=
      congrArg (fun t => t.1) hctrl
    have hIdxlt : c.opIdx < (OPERATION_SEQUENCE.length : ℤ) := by
      rw [hIdx1]
      interval_cases k <;> decide
    have htr : rwTraceFrom c.case_num k =
        (c.case_num, rwOps.getD k "") :: rwTraceFrom c.case_num (k + 1) := by
      interval_cases k <;> rfl
    have hrd : rwRedFrom c.case_num k =
        (if k = 4 then [(c.case_num, 1)] else []) ++
          rwRedFrom c.case_num (k + 1) := by
      interval_cases k <;> rfl
    unfold simCaseLoop
    rw [if_pos hIdxlt, hstep]
    obtain ⟨s3, c3, hloop, hev3, hrd3⟩ := ih (k + 1) (by omega) s2 c2 hws2 hctrl2
    refine ⟨s3, c3, hloop, ?_, ?_⟩
    · rw [hev3, hcn2, hev2, htr, List.append_assoc]
      rfl
    · rw [hrd3, hcn2, hrd2, hrd, List.append_assoc]

/-- C7 (counterexample to the literal claim): a completed run whose single
case visits the heat-treatment stage (sequence position 2) twice, although
no rework redirect targets position 2 — the single redirect re-enters at
position 1 and the case then re-runs positions 1 through 4. -/
theorem rework_bound_claim_cex :
    ∃ s, runSim OPERATIONS OPERATION_SEQUENCE REWORK_ROUTES 1 0 reworkDraws 10 =
        .ok s ∧ (1 : ℤ) ∈ caseNums 1 ∧
      vcountL s.events 1 2 ≠ rtargetL s.redirects 1 2 + 1 := by
  have hws0 : WsInv { initSim OPERATIONS 0 with
      npIdx := (initSim OPERATIONS 0).npIdx + 1 } := initSim_wsInv 0
  obtain ⟨s2, c2, hloop, hev, hrd⟩ := rework_seg 10 0 rfl
    { initSim OPERATIONS 0 with npIdx := (initSim OPERATIONS 0).npIdx + 1 }
    (initCase 1 (0 + reworkDraws.exponential (initSim OPERATIONS 0).npIdx 30))
    hws0 rfl
  refine ⟨s2, ?_, by decide, ?_⟩
  · unfold runSim
    rw [show caseNums 1 = [1] from by decide]
    simp only [runCases]
    rw [hloop]
  · have hev2 : s2.events.map evProj = rwTraceFrom 1 0 := by
      rw [hev]
      rfl
    have hrd2 : s2.redirects.map rdProj = rwRedFrom 1 0 := by
      rw [hrd]
      rfl
    rw [vcountL_of_map hev2 1 2, rtargetL_of_map hrd2 1 2]
    decide
